import Mathlib

/-!
Verification development for the TSP transformer model in
`my_model_packages.py`.  The tensor programs are shallowly embedded:
one batch row (and, inside `myMHA`, one batch-head row) is modelled at a
time, machine floats are modelled by exact reals, and the values produced
by the learned linear layers (queries, keys, raw attention logits) are
universally quantified parameters, since the learned weights are arbitrary.
-/

namespace TSPModel

/-! ## Attention primitive `myMHA` (source lines 61-102)

`attn_weights = torch.bmm(Q, K.transpose(1,2)) / Q.size(-1)**0.5` produces a
row `u : Fin m → ℝ` of raw logits (a function of the arbitrary learned
tensors, hence kept as a parameter).  Then the optional clipping
`clip_value * torch.tanh(attn_weights)` (line 88), the masked fill with
`float('-1e9')` (line 93) and `torch.softmax` (line 94) are applied. -/

/-- The large negative constant `float('-1e9')` used by `myMHA` to fill
masked logits (source line 93). -/
noncomputable def maskFillValue : ℝ := -1e9

/-- Optional logit clipping `clip_value * torch.tanh(attn_weights)`
(source lines 87-88). -/
noncomputable def clipLogits (clip : Option ℝ) (u : ℝ) : ℝ :=
  match clip with
  | none => u
  | some c => c * Real.tanh u

/-- The masked fill of source line 93 on one row: every position whose mask
entry is true is overwritten with `maskFillValue`. -/
noncomputable def maskFillRow {m : ℕ} (mask : Option (Fin m → Bool))
    (l : Fin m → ℝ) : Fin m → ℝ :=
  match mask with
  | none => l
  | some mk => fun i => if mk i then maskFillValue else l i

/-- The logits entering the softmax of `myMHA`: raw logits, then optional
clipping, then the masked fill (source lines 86-93, in that order). -/
noncomputable def myMHA_logits {m : ℕ} (clip : Option ℝ)
    (mask : Option (Fin m → Bool)) (u : Fin m → ℝ) : Fin m → ℝ :=
  maskFillRow mask (fun i => clipLogits clip (u i))

/-- `torch.softmax(attn_weights, dim=-1)` on one row (source line 94). -/
noncomputable def softmaxRow {m : ℕ} (l : Fin m → ℝ) : Fin m → ℝ :=
  fun i => Real.exp (l i) / ∑ j, Real.exp (l j)

/-- The attention weights returned by `myMHA` (its second output), one
batch-head row. -/
noncomputable def myMHA_weights {m : ℕ} (clip : Option ℝ)
    (mask : Option (Fin m → Bool)) (u : Fin m → ℝ) : Fin m → ℝ :=
  softmaxRow (myMHA_logits clip mask u)

/-! ### Basic softmax facts -/

theorem sum_exp_pos {m : ℕ} [NeZero m] (l : Fin m → ℝ) :
    0 < ∑ j, Real.exp (l j) :=
  Finset.sum_pos (fun j _ => Real.exp_pos (l j)) ⟨⟨0, Nat.pos_of_ne_zero (NeZero.ne m)⟩, Finset.mem_univ _⟩

theorem softmaxRow_pos {m : ℕ} [NeZero m] (l : Fin m → ℝ) (i : Fin m) :
    0 < softmaxRow l i :=
  div_pos (Real.exp_pos _) (sum_exp_pos l)

theorem softmaxRow_le_one {m : ℕ} [NeZero m] (l : Fin m → ℝ) (i : Fin m) :
    softmaxRow l i ≤ 1 := by
  have hZ : 0 < ∑ j, Real.exp (l j) := sum_exp_pos l
  have hle : Real.exp (l i) ≤ ∑ j, Real.exp (l j) :=
    Finset.single_le_sum (fun j _ => (Real.exp_pos (l j)).le) (Finset.mem_univ i)
  exact (div_le_one hZ).mpr hle

/-- Softmax is strictly monotone position-wise: a strictly smaller logit
gives a strictly smaller weight. -/
theorem softmaxRow_lt_softmaxRow {m : ℕ} [NeZero m] (l : Fin m → ℝ)
    {i j : Fin m} (h : l i < l j) : softmaxRow l i < softmaxRow l j := by
  have hZ : 0 < ∑ k, Real.exp (l k) := sum_exp_pos l
  exact (div_lt_div_iff_of_pos_right hZ).mpr (Real.exp_lt_exp.mpr h)

/-! ### Bounds for clipped logits: `tanh` stays in `(-1, 1)` -/

theorem tanh_lt_one (x : ℝ) : Real.tanh x < 1 := by
  rw [Real.tanh_eq_sinh_div_cosh]
  exact (div_lt_one (Real.cosh_pos x)).mpr (Real.sinh_lt_cosh x)

theorem neg_one_lt_tanh (x : ℝ) : -1 < Real.tanh x := by
  rw [Real.tanh_eq_sinh_div_cosh]
  have h : -Real.cosh x < Real.sinh x := by
    have := Real.exp_pos x
    have hcs := Real.cosh_add_sinh x
    linarith
  exact (lt_div_iff₀ (Real.cosh_pos x)).mpr (by linarith)

/-! ### The masked fill

Every masked position's logit is replaced by the finite `-1e9` after the
optional clipping and before the softmax (line 93; the commented-out line 92
shows the rejected `-inf` variant).  In the program's float32 arithmetic
`exp(-1e9)` then underflows to exactly `0.0` inside `torch.softmax`, so
masked positions end up with weight exactly zero; that underflow is a
property of the floating-point `exp`, not of the exact-real softmax modelled
here, where the masked weight is the strictly positive `exp(-1e9) / Z`. -/

/-- A masked position's logit is `maskFillValue` after the optional clip and
before the softmax, whatever the clip and the raw logits are. -/
theorem myMHA_logits_of_mask {m : ℕ} (clip : Option ℝ) (mask : Fin m → Bool)
    (u : Fin m → ℝ) {i : Fin m} (hi : mask i = true) :
    myMHA_logits clip (some mask) u i = maskFillValue := by
  simp [myMHA_logits, maskFillRow, hi]

/-! ## Tour length evaluator `compute_tour_length` (source lines 643-664)

One batch row is modelled: `x` is the row's list of 2D city coordinates and
`tour` the row of node indices.  Out-of-range tensor indexing raises in
PyTorch, and for `nb_nodes = 1` the closing-edge line reads the
never-assigned Python local `current_cities` (a `NameError`), so the
embedding returns an `Option`. -/

/-- Euclidean distance `(a - b).pow(2).sum(dim=1).sqrt()` between two
coordinate pairs (source line 659). -/
noncomputable def torchDist (a b : ℝ × ℝ) : ℝ :=
  Real.sqrt ((a.1 - b.1) ^ 2 + (a.2 - b.2) ^ 2)

/-- The loop `for i in range(1, nb_nodes)` of `compute_tour_length`
(source lines 657-661), carrying the accumulator `L` and
`previous_cities`; it returns the final accumulator together with the last
value of `current_cities` (which equals `previous_cities` on entry if the
loop body never runs). -/
noncomputable def tourLoop (x : List (ℝ × ℝ)) :
    ℝ × ℝ → ℝ → List ℕ → Option (ℝ × (ℝ × ℝ))
  | prev, L, [] => some (L, prev)
  | prev, L, i :: rest =>
    match x[i]? with
    | none => none
    | some cur => tourLoop x cur (L + torchDist cur prev) rest

/-- `compute_tour_length` (source lines 643-664) on one batch row.  The
result is `none` exactly when the Python call raises: an out-of-range node
index (tensor `IndexError`), an empty tour (indexing `tour[:,0]`), or a
one-node tour, for which the closing edge `current_cities - first_cities`
reads the never-assigned loop variable `current_cities` (`NameError`). -/
noncomputable def compute_tour_length (x : List (ℝ × ℝ)) (tour : List ℕ) :
    Option ℝ :=
  match tour with
  | [] => none
  | t0 :: rest =>
    match x[t0]? with
    | none => none
    | some first =>
      match rest with
      | [] => none
      | _ :: _ =>
        match tourLoop x first 0 rest with
        | none => none
        | some (L, cur) => some (L + torchDist cur first)

/-- Modelled from the spec (section 4.7): the sum of Euclidean distances
between consecutive tour positions, plus the distance from the last back to
the first.  Stated independently of the source loop, for the refinement
direction of claim C6. -/
noncomputable def specTourLength (x : List (ℝ × ℝ)) (tour : List ℕ) : ℝ :=
  let pts := tour.map (fun i => x.getD i (0, 0))
  (List.zipWith torchDist pts.tail pts).sum
    + torchDist ((pts.getLast?).getD (0, 0)) ((pts.head?).getD (0, 0))

theorem tourLoop_eq_spec (x : List (ℝ × ℝ)) :
    ∀ (rest : List ℕ) (prev : ℝ × ℝ) (L : ℝ),
      (∀ i ∈ rest, i < x.length) →
      tourLoop x prev L rest =
        some (L + (List.zipWith torchDist
            (rest.map fun i => x.getD i (0, 0))
            (prev :: rest.map fun i => x.getD i (0, 0))).sum,
          (rest.map fun i => x.getD i (0, 0)).getLastD prev) := by
  intro rest
  induction rest with
  | nil => intro prev L _; simp [tourLoop]
  | cons i is ih =>
    intro prev L hvalid
    have hi : i < x.length := hvalid i (List.mem_cons_self i is)
    have hget : x[i]? = some (x.getD i (0, 0)) := by
      rw [List.getElem?_eq_getElem hi, List.getD_eq_getElem x (0, 0) hi]
    have hrest : ∀ j ∈ is, j < x.length := fun j hj =>
      hvalid j (List.mem_cons_of_mem i hj)
    simp only [tourLoop, hget, ih (x.getD i (0, 0)) (L + torchDist (x.getD i (0, 0)) prev) hrest,
      List.map_cons, List.zipWith_cons_cons, List.sum_cons, List.getLastD_cons]
    congr 2
    ring

theorem getLast?_getD_cons {α : Type} (d : α) :
    ∀ (l : List α) (a : α), (((a :: l).getLast?).getD d) = l.getLastD a := by
  intro l
  induction l with
  | nil => intro a; rfl
  | cons b bs ih =>
    intro a
    rw [List.getLast?_cons_cons, ih b, List.getLastD_cons]

theorem compute_tour_length_eq_spec (x : List (ℝ × ℝ)) (tour : List ℕ)
    (h2 : 2 ≤ tour.length) (hvalid : ∀ i ∈ tour, i < x.length) :
    compute_tour_length x tour = some (specTourLength x tour) := by
  match tour, h2 with
  | t0 :: t1 :: rest, _ =>
    have ht0 : t0 < x.length := hvalid t0 (by simp)
    have hget : x[t0]? = some (x.getD t0 (0, 0)) := by
      rw [List.getElem?_eq_getElem ht0, List.getD_eq_getElem x (0, 0) ht0]
    have hvrest : ∀ i ∈ t1 :: rest, i < x.length := fun i hi =>
      hvalid i (List.mem_cons_of_mem t0 hi)
    simp only [compute_tour_length, hget,
      tourLoop_eq_spec x (t1 :: rest) (x.getD t0 (0, 0)) 0 hvrest]
    simp only [specTourLength, List.map_cons, List.tail_cons, List.getLastD_cons,
      List.head?_cons, Option.getD_some, zero_add]
    congr 1
    rw [getLast?_getD_cons, List.getLastD_cons]

/-- C6: on every valid input (a tour of at least two in-range node indices),
`compute_tour_length` returns, for the batch row, the sum of Euclidean
distances between consecutive tour cities plus the closing edge back to the
first city; in particular on the unit square `(0,0),(1,0),(1,1),(0,1)` with
tour `[0,1,2,3]` it returns exactly `4`. -/
theorem C6_tour_length_spec :
    (∀ (x : List (ℝ × ℝ)) (tour : List ℕ), 2 ≤ tour.length →
      (∀ i ∈ tour, i < x.length) →
      compute_tour_length x tour = some (specTourLength x tour)) ∧
    compute_tour_length [((0 : ℝ), (0 : ℝ)), (1, 0), (1, 1), (0, 1)] [0, 1, 2, 3]
      = some 4 := by
  constructor
  · exact compute_tour_length_eq_spec
  · have h1 : torchDist ((1 : ℝ), (0 : ℝ)) (0, 0) = 1 := by
      simp only [torchDist]
      norm_num
    have h2 : torchDist ((1 : ℝ), (1 : ℝ)) (1, 0) = 1 := by
      simp only [torchDist]
      norm_num
    have h3 : torchDist ((0 : ℝ), (1 : ℝ)) (1, 1) = 1 := by
      simp only [torchDist]
      norm_num
    have h4 : torchDist ((0 : ℝ), (1 : ℝ)) (0, 0) = 1 := by
      simp only [torchDist]
      norm_num
    simp only [compute_tour_length, tourLoop, List.getElem?_cons_zero,
      List.getElem?_cons_succ, h1, h2, h3, h4]
    norm_num

/-- Closed witness instantiating the general part of `C6_tour_length_spec`
on the unit square. -/
theorem C6_witness :
    compute_tour_length [((0 : ℝ), (0 : ℝ)), (1, 0), (1, 1), (0, 1)] [0, 1, 2, 3]
      = some (specTourLength [((0 : ℝ), (0 : ℝ)), (1, 0), (1, 1), (0, 1)] [0, 1, 2, 3]) :=
  C6_tour_length_spec.1 _ _ (by decide) (by decide)

/-- C10: `compute_tour_length` is total on instances with at least two
nodes (it returns a length for every batch row), but on a one-node instance
the distance loop never executes and the closing-edge computation reads the
never-assigned `current_cities`, so the call fails (returns nothing) rather
than returning `0`. -/
theorem C10_single_node_tour_fails :
    (∀ (x : List (ℝ × ℝ)) (tour : List ℕ), 2 ≤ tour.length →
      tour.length = x.length → (∀ i ∈ tour, i < x.length) →
      ∃ r, compute_tour_length x tour = some r) ∧
    (∀ (x : List (ℝ × ℝ)) (t0 : ℕ), compute_tour_length x [t0] = none) := by
  constructor
  · intro x tour h2 _ hvalid
    exact ⟨specTourLength x tour, compute_tour_length_eq_spec x tour h2 hvalid⟩
  · intro x t0
    simp only [compute_tour_length]
    cases x[t0]? with
    | none => rfl
    | some first => rfl

/-- Closed witness instantiating both parts of `C10_single_node_tour_fails`:
a two-node instance succeeds, the one-node instance fails. -/
theorem C10_witness :
    (∃ r, compute_tour_length [((0 : ℝ), (0 : ℝ)), (1, 0)] [0, 1] = some r) ∧
    compute_tour_length [((0 : ℝ), (0 : ℝ))] [0] = none :=
  ⟨C10_single_node_tour_fails.1 [((0 : ℝ), (0 : ℝ)), (1, 0)] [0, 1]
      (by decide) (by decide) (by decide),
    C10_single_node_tour_fails.2 [((0 : ℝ), (0 : ℝ))] 0⟩

/-! ## Decoder layer self-attention cache (source lines 132-183)

`AutoRegressiveDecoderLayer` stores `K_sa`/`V_sa`, reset to `None` by
`reset_selfatt_keys_values` (lines 135-137).  Each `forward` call appends
one new key and value along the sequence dimension (lines 174-180) and, when
`segm_len` is configured, truncates to the slice `[:, -segm_len:, :]`
(lines 181-183).  One beam-batch row is modelled; the appended key/value
vectors are abstract values of a type `α`. -/

/-- A Python slice `xs[-s:]`.  Note that for `s = 0` Python evaluates
`xs[-0:] = xs[0:] = xs`, keeping the whole list, not the empty one. -/
def pySliceLast {α : Type} (s : ℕ) (xs : List α) : List α :=
  if s = 0 then xs else xs.drop (xs.length - s)

/-- The `K_sa`/`V_sa` fields of one decoder layer; `none` is the state
produced by `reset_selfatt_keys_values`. -/
structure SelfAttCache (α : Type) where
  K_sa : Option (List α)
  V_sa : Option (List α)

/-- The state set by `reset_selfatt_keys_values` (source lines 135-137). -/
def reset_selfatt_keys_values {α : Type} : SelfAttCache α := ⟨none, none⟩

/-- The cache update performed by one `AutoRegressiveDecoderLayer.forward`
call (source lines 174-183): append the new key/value, then truncate to the
most recent `segm_len` entries when a sliding window is configured. -/
def decoderLayerCacheStep {α : Type} (segm_len : Option ℕ)
    (c : SelfAttCache α) (k v : α) : SelfAttCache α :=
  let Ks := match c.K_sa with
    | none => [k]
    | some ks => ks ++ [k]
  let Vs := match c.V_sa with
    | none => [v]
    | some vs => vs ++ [v]
  match segm_len with
  | none => ⟨some Ks, some Vs⟩
  | some s => ⟨some (pySliceLast s Ks), some (pySliceLast s Vs)⟩

/-- The cache after the `(t+1)`-th `forward` call since the last reset,
with `ks t`/`vs t` the (arbitrary) projected key/value of step `t`. -/
def cacheAfter {α : Type} (segm_len : Option ℕ) (ks vs : ℕ → α) :
    ℕ → SelfAttCache α
  | 0 => decoderLayerCacheStep segm_len reset_selfatt_keys_values (ks 0) (vs 0)
  | t + 1 => decoderLayerCacheStep segm_len (cacheAfter segm_len ks vs t)
      (ks (t + 1)) (vs (t + 1))

theorem pySliceLast_length {α : Type} (s : ℕ) (hs : 1 ≤ s) (xs : List α) :
    (pySliceLast s xs).length = min xs.length s := by
  have : s ≠ 0 := Nat.one_le_iff_ne_zero.mp hs
  simp only [pySliceLast, if_neg this, List.length_drop]
  omega

theorem cacheAfter_lengths {α : Type} (segm_len : Option ℕ) (ks vs : ℕ → α)
    (t : ℕ) :
    ∃ Ks Vs : List α,
      (cacheAfter segm_len ks vs t).K_sa = some Ks ∧
      (cacheAfter segm_len ks vs t).V_sa = some Vs ∧
      Ks.length = (match segm_len with
        | none => t + 1
        | some s => if 1 ≤ s then min (t + 1) s else t + 1) ∧
      Vs.length = (match segm_len with
        | none => t + 1
        | some s => if 1 ≤ s then min (t + 1) s else t + 1) := by
  induction t with
  | zero =>
    cases segm_len with
    | none => exact ⟨[ks 0], [vs 0], rfl, rfl, rfl, rfl⟩
    | some s =>
      refine ⟨pySliceLast s [ks 0], pySliceLast s [vs 0], rfl, rfl, ?_, ?_⟩ <;>
      · by_cases hs : 1 ≤ s
        · rw [pySliceLast_length s hs]
          simp [hs, Nat.min_comm]
        · have : s = 0 := by omega
          simp [this, pySliceLast]
  | succ t ih =>
    obtain ⟨Ks, Vs, hK, hV, hKl, hVl⟩ := ih
    cases segm_len with
    | none =>
      refine ⟨Ks ++ [ks (t + 1)], Vs ++ [vs (t + 1)], ?_, ?_, ?_, ?_⟩ <;>
        simp [cacheAfter, decoderLayerCacheStep, hK, hV, List.length_append, hKl, hVl]
    | some s =>
      by_cases hs : 1 ≤ s
      · refine ⟨pySliceLast s (Ks ++ [ks (t + 1)]), pySliceLast s (Vs ++ [vs (t + 1)]),
          ?_, ?_, ?_, ?_⟩
        · simp [cacheAfter, decoderLayerCacheStep, hK, hV]
        · simp [cacheAfter, decoderLayerCacheStep, hK, hV]
        · rw [pySliceLast_length s hs]
          simp only [List.length_append, List.length_singleton, hKl, if_pos hs]
          simp only [if_pos hs] at hKl ⊢
          omega
        · rw [pySliceLast_length s hs]
          simp only [List.length_append, List.length_singleton, hVl, if_pos hs]
          simp only [if_pos hs] at hVl ⊢
          omega
      · have hs0 : s = 0 := by omega
        subst hs0
        refine ⟨Ks ++ [ks (t + 1)], Vs ++ [vs (t + 1)], ?_, ?_, ?_, ?_⟩ <;>
          simp [cacheAfter, decoderLayerCacheStep, hK, hV, pySliceLast,
            List.length_append, hKl, hVl]

/-- C2 (amended): after the `(t+1)`-th `forward` call since the last
`reset_selfatt_keys_values`, the cached key and value sequences `K_sa` and
`V_sa` each have length `min (t+1) segm_len` when a sliding-window length
`segm_len ≥ 1` is configured, and length `t+1` when no window is
configured.  (A configured window of `0` is ignored rather than honoured:
Python's `[:, -0:, :]` slice keeps the whole sequence, so the length is
`t+1`, not `min (t+1) 0 = 0` — see `C2_counterexample`.) -/
theorem C2_cache_length_invariant {α : Type} (segm_len : Option ℕ)
    (ks vs : ℕ → α) (t : ℕ) :
    ∃ Ks Vs : List α,
      (cacheAfter segm_len ks vs t).K_sa = some Ks ∧
      (cacheAfter segm_len ks vs t).V_sa = some Vs ∧
      ((segm_len = none → Ks.length = t + 1 ∧ Vs.length = t + 1) ∧
       (∀ s : ℕ, segm_len = some s → 1 ≤ s →
          Ks.length = min (t + 1) s ∧ Vs.length = min (t + 1) s) ∧
       (segm_len = some 0 → Ks.length = t + 1 ∧ Vs.length = t + 1)) := by
  obtain ⟨Ks, Vs, hK, hV, hKl, hVl⟩ := cacheAfter_lengths segm_len ks vs t
  refine ⟨Ks, Vs, hK, hV, ?_, ?_, ?_⟩
  · rintro rfl
    exact ⟨hKl, hVl⟩
  · rintro s rfl hs
    rw [hKl, hVl]
    simp [hs]
  · rintro rfl
    rw [hKl, hVl]
    norm_num

/-- C2 counterexample to the claim as literally stated: with a configured
sliding-window length of `0`, after the first call the cache holds one
entry, not `min (0+1) 0 = 0` — Python's `[:, -0:, :]` keeps everything. -/
theorem C2_counterexample :
    ∃ Ks : List ℕ,
      (cacheAfter (some 0) (fun _ => 0) (fun _ => 0) 0).K_sa = some Ks ∧
      Ks.length = 1 ∧ Ks.length ≠ min (0 + 1) 0 := by
  exact ⟨[0], rfl, rfl, by decide⟩

/-- Closed witness instantiating `C2_cache_length_invariant` with window
length `2` after three calls. -/
theorem C2_witness :
    ∃ Ks Vs : List ℕ,
      (cacheAfter (some 2) (fun t => t) (fun t => t) 2).K_sa = some Ks ∧
      (cacheAfter (some 2) (fun t => t) (fun t => t) 2).V_sa = some Vs ∧
      Ks.length = min (2 + 1) 2 ∧ Vs.length = min (2 + 1) 2 := by
  obtain ⟨Ks, Vs, hK, hV, _, h2, _⟩ :=
    C2_cache_length_invariant (some 2) (fun t => t) (fun t => t) 2
  obtain ⟨hKl, hVl⟩ := h2 2 rfl (by decide)
  exact ⟨Ks, Vs, hK, hV, hKl, hVl⟩

/-! ## Cache reordering for beam search (source lines 140-160)

`reorder_selfatt_keys_values(t, idx_top_beams)` views the flat cache of
`bsz * B2` rows as `(bsz, B2, key_len, dim_emb)`, clones it, allocates a
zero tensor of shape `(bsz, B, key_len, dim_emb)`, copies
`K_sa_tmp[b, idx_top_beams[b], :, :]` into rows `0..B-1` of batch row `b`,
and views the result back as `(bsz * B, key_len, dim_emb)`.  Each per-beam
cached `(key_len, dim_emb)` block is modelled as one abstract value of type
`α`; the flat cache is a function from the row index. -/

/-- Viewing a flat `(bsz * B2, ...)` tensor as `(bsz, B2, ...)`: entry
`(b, j)` is flat entry `b * B2 + j`. -/
def viewRows {α : Type} (B2 : ℕ) (flat : ℕ → α) : ℕ → ℕ → α :=
  fun b j => flat (b * B2 + j)

/-- The zero-filled `(bsz, B, ...)` tensor overwritten row-by-row with the
gathered blocks `tmp[b, idx_top_beams[b], :, :]` (source lines 151-153). -/
def gatherRows {α : Type} (bsz B B2 : ℕ) (flat : ℕ → α)
    (idx_top_beams : ℕ → ℕ → ℕ) (zero : α) : ℕ → ℕ → α :=
  fun b i => if b < bsz ∧ i < B then viewRows B2 flat b (idx_top_beams b i) else zero

/-- Viewing a `(bsz, B, ...)` tensor back as flat `(bsz * B, ...)`
(source lines 154 and 160). -/
def flattenRows {α : Type} (B : ℕ) (g : ℕ → ℕ → α) : ℕ → α :=
  fun r => g (r / B) (r % B)

/-- `reorder_selfatt_keys_values` on the two cache tensors of one layer
(source lines 140-160); `K` and `V` are rebuilt by the same view-gather-view
sequence. -/
def reorder_selfatt_keys_values {α : Type} (bsz B B2 : ℕ) (K V : ℕ → α)
    (idx_top_beams : ℕ → ℕ → ℕ) (zero : α) : (ℕ → α) × (ℕ → α) :=
  (flattenRows B (gatherRows bsz B B2 K idx_top_beams zero),
   flattenRows B (gatherRows bsz B B2 V idx_top_beams zero))

/-- C3: after `reorder_selfatt_keys_values`, the rebuilt cache holds at beam
position `i` of batch row `b` (flat row `b * B + i`) exactly the cached
key/value block that previously belonged to source beam
`idx_top_beams b i` of batch row `b` (flat row `b * B2 + idx_top_beams b i`),
for every `b < bsz` and `i < B`; repeated source beams are allowed since
`idx_top_beams` is an arbitrary index table. -/
theorem C3_reorder_gathers_source_beams {α : Type} (bsz B B2 : ℕ)
    (K V : ℕ → α) (idx_top_beams : ℕ → ℕ → ℕ) (zero : α)
    (b i : ℕ) (hb : b < bsz) (hi : i < B) :
    (reorder_selfatt_keys_values bsz B B2 K V idx_top_beams zero).1 (b * B + i)
        = K (b * B2 + idx_top_beams b i) ∧
    (reorder_selfatt_keys_values bsz B B2 K V idx_top_beams zero).2 (b * B + i)
        = V (b * B2 + idx_top_beams b i) := by
  have hB : 0 < B := lt_of_le_of_lt (Nat.zero_le i) hi
  have hdiv : (b * B + i) / B = b := by
    rw [Nat.mul_comm b B, Nat.mul_add_div hB]
    simp [Nat.div_eq_of_lt hi]
  have hmod : (b * B + i) % B = i := by
    rw [Nat.mul_comm b B, Nat.mul_add_mod]
    exact Nat.mod_eq_of_lt hi
  constructor <;>
    simp [reorder_selfatt_keys_values, flattenRows, gatherRows, viewRows,
      hdiv, hmod, hb, hi]

/-- Closed witness instantiating `C3_reorder_gathers_source_beams` with
`bsz = 2`, `B2 = 2`, `B = 3` and a repeating index table. -/
theorem C3_witness :
    (reorder_selfatt_keys_values 2 3 2 (fun r => r) (fun r => 10 * r)
        (fun b i => (b + i) % 2) 0).1 (1 * 3 + 2) = 1 * 2 + (1 + 2) % 2 ∧
    (reorder_selfatt_keys_values 2 3 2 (fun r => r) (fun r => 10 * r)
        (fun b i => (b + i) % 2) 0).2 (1 * 3 + 2) = 10 * (1 * 2 + (1 + 2) % 2) :=
  C3_reorder_gathers_source_beams 2 3 2 (fun r => r) (fun r => 10 * r)
    (fun b i => (b + i) % 2) 0 1 2 (by decide) (by decide)

/-! ## Placeholder outputs of `TSP_net.forward` (source lines 340-343, 513)

Before either decoding branch runs, `forward` allocates
`tours_greedy = torch.zeros(2, nb_nodes)`, `tours_beamsearch =
torch.zeros(2, nb_nodes)`, `scores_greedy = torch.zeros(2)` and
`scores_beamsearch = torch.zeros(2)`; a branch that runs reassigns its pair,
and line 513 returns all four.  The values computed by the branches are
parameters here. -/

/-- A zero-filled 2-D float tensor `torch.zeros(r, c)` as rows of rows. -/
noncomputable def torchZeros2 (r c : ℕ) : List (List ℝ) :=
  List.replicate r (List.replicate c 0)

/-- A zero-filled 1-D float tensor `torch.zeros(r)`. -/
noncomputable def torchZeros1 (r : ℕ) : List ℝ :=
  List.replicate r 0

/-- The allocation and return structure of `TSP_net.forward` (source lines
340-343 and 513): each mode's outputs are its computed tensors when its flag
is set, else the preallocated zero placeholders. -/
noncomputable def TSP_net_forward_outputs (bsz nb_nodes : ℕ)
    (greedy beamsearch : Bool)
    (computed_tours_greedy : List (List ℝ)) (computed_scores_greedy : List ℝ)
    (computed_tours_beamsearch : List (List ℝ))
    (computed_scores_beamsearch : List ℝ) :
    List (List ℝ) × List (List ℝ) × List ℝ × List ℝ :=
  let tours_greedy := torchZeros2 2 nb_nodes
  let tours_beamsearch := torchZeros2 2 nb_nodes
  let scores_greedy := torchZeros1 2
  let scores_beamsearch := torchZeros1 2
  let tg := if greedy then computed_tours_greedy else tours_greedy
  let sg := if greedy then computed_scores_greedy else scores_greedy
  let tb := if beamsearch then computed_tours_beamsearch else tours_beamsearch
  let sb := if beamsearch then computed_scores_beamsearch else scores_beamsearch
  (tg, tb, sg, sb)

/-- C9: when `forward`'s `greedy` flag is false the returned `tours_greedy`
is the zero-filled tensor of shape `(2, nb_nodes)` and `scores_greedy` the
zero-filled tensor of shape `(2,)`, and likewise for
`tours_beamsearch`/`scores_beamsearch` when the `beamsearch` flag is false:
the placeholder's leading dimension is the constant `2`, independent of the
batch size `bsz` (which does not enter the allocation at all). -/
theorem C9_placeholder_outputs (bsz nb_nodes : ℕ) (greedy beamsearch : Bool)
    (ctg : List (List ℝ)) (csg : List ℝ) (ctb : List (List ℝ)) (csb : List ℝ) :
    (greedy = false →
      (TSP_net_forward_outputs bsz nb_nodes greedy beamsearch ctg csg ctb csb).1
          = List.replicate 2 (List.replicate nb_nodes 0) ∧
      (TSP_net_forward_outputs bsz nb_nodes greedy beamsearch ctg csg ctb csb).2.2.1
          = List.replicate 2 0) ∧
    (beamsearch = false →
      (TSP_net_forward_outputs bsz nb_nodes greedy beamsearch ctg csg ctb csb).2.1
          = List.replicate 2 (List.replicate nb_nodes 0) ∧
      (TSP_net_forward_outputs bsz nb_nodes greedy beamsearch ctg csg ctb csb).2.2.2
          = List.replicate 2 0) ∧
    (torchZeros2 2 nb_nodes).length = 2 ∧
    (∀ row ∈ torchZeros2 2 nb_nodes, row.length = nb_nodes) ∧
    (torchZeros1 2).length = 2 := by
  refine ⟨?_, ?_, ?_, ?_, ?_⟩
  · rintro rfl
    exact ⟨rfl, rfl⟩
  · rintro rfl
    cases greedy <;> exact ⟨rfl, rfl⟩
  · rfl
  · intro row hrow
    rcases List.eq_of_mem_replicate hrow with rfl
    exact List.length_replicate nb_nodes 0
  · rfl

/-- Closed witness instantiating `C9_placeholder_outputs` at `bsz = 7`,
`nb_nodes = 3`, both flags false. -/
theorem C9_witness :
    (TSP_net_forward_outputs 7 3 false false [] [] [] []).1
        = List.replicate 2 (List.replicate 3 0) ∧
    (TSP_net_forward_outputs 7 3 false false [] [] [] []).2.1
        = List.replicate 2 (List.replicate 3 0) ∧
    (TSP_net_forward_outputs 7 3 false false [] [] [] []).2.2.1
        = List.replicate 2 0 ∧
    (TSP_net_forward_outputs 7 3 false false [] [] [] []).2.2.2
        = List.replicate 2 0 := by
  obtain ⟨h1, h2, _⟩ := C9_placeholder_outputs 7 3 false false [] [] [] []
  obtain ⟨h3, h4⟩ := h1 rfl
  obtain ⟨h5, h6⟩ := h2 rfl
  exact ⟨h3, h5, h4, h6⟩

/-! ## Selection primitives: `torch.argmax` and `torch.topk`

`torch.argmax` returns the index of the first maximal value.  `torch.topk`
(with its default `sorted=True`) returns the `k` largest values in
descending order; ties are resolved stably (first-seen wins), the ordering
the spec pins down for reproducibility.  Both are modelled by repeatedly
taking the first maximal element. -/

/-- The first element of `l` attaining the maximal value of `val`
(`none` iff `l` is empty). -/
noncomputable def firstMaxList {α : Type} (val : α → ℝ) : List α → Option α
  | [] => none
  | i :: is =>
    match firstMaxList val is with
    | none => some i
    | some j => if val i < val j then some j else some i

theorem firstMaxList_eq_none {α : Type} (val : α → ℝ) :
    ∀ l : List α, firstMaxList val l = none ↔ l = [] := by
  intro l
  cases l with
  | nil => simp [firstMaxList]
  | cons i is =>
    simp only [firstMaxList]
    cases firstMaxList val is with
    | none => simp
    | some j =>
      by_cases h : val i < val j <;> simp [h]

theorem firstMaxList_mem {α : Type} (val : α → ℝ) :
    ∀ (l : List α) (j : α), firstMaxList val l = some j → j ∈ l := by
  intro l
  induction l with
  | nil => intro j h; simp [firstMaxList] at h
  | cons i is ih =>
    intro j h
    cases hrec : firstMaxList val is with
    | none =>
      simp only [firstMaxList, hrec] at h
      cases h
      exact List.mem_cons_self i is
    | some m =>
      simp only [firstMaxList, hrec] at h
      by_cases hv : val i < val m
      · rw [if_pos hv] at h
        cases h
        exact List.mem_cons_of_mem i (ih j hrec)
      · rw [if_neg hv] at h
        cases h
        exact List.mem_cons_self i is

theorem firstMaxList_is_max {α : Type} (val : α → ℝ) :
    ∀ (l : List α) (j : α), firstMaxList val l = some j →
      ∀ i ∈ l, val i ≤ val j := by
  intro l
  induction l with
  | nil => intro j _ i hi; cases hi
  | cons a as ih =>
    intro j h i hi
    cases hrec : firstMaxList val as with
    | none =>
      simp only [firstMaxList, hrec] at h
      cases h
      rcases List.mem_cons.mp hi with rfl | hi2
      · exact le_refl _
      · rw [(firstMaxList_eq_none val as).mp hrec] at hi2
        cases hi2
    | some m =>
      simp only [firstMaxList, hrec] at h
      by_cases hv : val a < val m
      · rw [if_pos hv] at h
        cases h
        rcases List.mem_cons.mp hi with rfl | hi2
        · exact le_of_lt hv
        · exact ih j hrec i hi2
      · rw [if_neg hv] at h
        cases h
        rcases List.mem_cons.mp hi with rfl | hi2
        · exact le_refl _
        · exact le_trans (ih m hrec i hi2) (not_lt.mp hv)

/-- Repeated first-max selection: the `k` largest candidates in descending
order, stable on ties. -/
noncomputable def topkAux {α : Type} [DecidableEq α] (val : α → ℝ) :
    ℕ → List α → List α
  | 0, _ => []
  | k + 1, cands =>
    match firstMaxList val cands with
    | none => []
    | some j => j :: topkAux val k (cands.erase j)

/-- `torch.topk(values, k, dim)` on one row of `n` candidates: the list of
selected (flat) indices. -/
noncomputable def torchTopk (val : ℕ → ℝ) (k n : ℕ) : List ℕ :=
  topkAux val k (List.range n)

theorem topkAux_subset {α : Type} [DecidableEq α] (val : α → ℝ) :
    ∀ (k : ℕ) (cands : List α), topkAux val k cands ⊆ cands := by
  intro k
  induction k with
  | zero => intro cands; simp [topkAux]
  | succ k ih =>
    intro cands
    simp only [topkAux]
    cases h : firstMaxList val cands with
    | none => simp
    | some j =>
      intro a ha
      rcases List.mem_cons.mp ha with rfl | ha2
      · exact firstMaxList_mem val cands a h
      · exact List.erase_subset j cands (ih (cands.erase j) ha2)

theorem topkAux_nodup {α : Type} [DecidableEq α] (val : α → ℝ) :
    ∀ (k : ℕ) (cands : List α), cands.Nodup → (topkAux val k cands).Nodup := by
  intro k
  induction k with
  | zero => intro cands _; simp [topkAux]
  | succ k ih =>
    intro cands hnd
    simp only [topkAux]
    cases h : firstMaxList val cands with
    | none => simp
    | some j =>
      refine List.nodup_cons.mpr ⟨?_, ih (cands.erase j) (hnd.erase j)⟩
      intro hmem
      exact (hnd.mem_erase_iff.mp (topkAux_subset val k (cands.erase j) hmem)).1 rfl

theorem topkAux_length {α : Type} [DecidableEq α] (val : α → ℝ) :
    ∀ (k : ℕ) (cands : List α),
      (topkAux val k cands).length = min k cands.length := by
  intro k
  induction k with
  | zero => intro cands; simp [topkAux]
  | succ k ih =>
    intro cands
    simp only [topkAux]
    cases h : firstMaxList val cands with
    | none =>
      rw [(firstMaxList_eq_none val cands).mp h]
      simp
    | some j =>
      have hmem : j ∈ cands := firstMaxList_mem val cands j h
      have hpos : 1 ≤ cands.length := List.length_pos_of_mem hmem
      simp only [List.length_cons, ih (cands.erase j),
        List.length_erase_of_mem hmem]
      omega

theorem topkAux_is_top {α : Type} [DecidableEq α] (val : α → ℝ) :
    ∀ (k : ℕ) (cands : List α), cands.Nodup →
      ∀ f ∈ topkAux val k cands, ∀ g ∈ cands, g ∉ topkAux val k cands →
        val g ≤ val f := by
  intro k
  induction k with
  | zero => intro cands _ f hf; simp [topkAux] at hf
  | succ k ih =>
    intro cands hnd f hf g hg hgn
    simp only [topkAux] at hf hgn
    cases h : firstMaxList val cands with
    | none => rw [h] at hf; cases hf
    | some j =>
      rw [h] at hf hgn
      have hgj : g ≠ j := by
        intro heq
        exact hgn (heq ▸ List.mem_cons_self j _)
      have hgerase : g ∈ cands.erase j := hnd.mem_erase_iff.mpr ⟨hgj, hg⟩
      rcases List.mem_cons.mp hf with rfl | hf2
      · exact firstMaxList_is_max val cands f h g hg
      · exact ih (cands.erase j) (hnd.erase j) f hf2 g hgerase
          (fun hc => hgn (List.mem_cons_of_mem j hc))

/-- Selection quality: if every bad candidate's value is strictly below
every good candidate's value and there are at least `k` good candidates,
then everything `topkAux` selects is good. -/
theorem topkAux_selects_good {α : Type} [DecidableEq α] (val : α → ℝ)
    (good : α → Bool) (k : ℕ) (cands : List α) (hnd : cands.Nodup)
    (hsep : ∀ f ∈ cands, ∀ g ∈ cands, good f = false → good g = true →
      val f < val g)
    (hcount : k ≤ (cands.filter good).length) :
    ∀ f ∈ topkAux val k cands, good f = true := by
  intro f hf
  by_contra hbad
  have hbadf : good f = false := by
    cases hgf : good f
    · rfl
    · exact absurd hgf hbad
  have hfc : f ∈ cands := topkAux_subset val k cands hf
  have hlen : (topkAux val k cands).length = min k cands.length :=
    topkAux_length val k cands
  by_cases hex : ∃ g ∈ cands.filter good, g ∉ topkAux val k cands
  · obtain ⟨g, hgfilter, hgnot⟩ := hex
    have hgc : g ∈ cands := List.mem_of_mem_filter hgfilter
    have hggood : good g = true := List.of_mem_filter hgfilter
    have hle : val g ≤ val f := topkAux_is_top val k cands hnd f hf g hgc hgnot
    have hlt : val f < val g := hsep f hfc g hgc hbadf hggood
    exact absurd hle (not_le.mpr hlt)
  · push_neg at hex
    have hsub : f :: cands.filter good ⊆ topkAux val k cands := by
      intro a ha
      rcases List.mem_cons.mp ha with rfl | ha2
      · exact hf
      · exact hex a ha2
    have hndsub : (f :: cands.filter good).Nodup := by
      refine List.nodup_cons.mpr ⟨?_, hnd.filter good⟩
      intro hmem
      rw [List.of_mem_filter hmem] at hbadf
      cases hbadf
    have hlensub : (f :: cands.filter good).length ≤ (topkAux val k cands).length :=
      (List.subperm_of_subset hndsub hsub).length_le
    simp only [List.length_cons, hlen] at hlensub
    have : k ≤ min k cands.length := le_trans hcount (by
      calc (cands.filter good).length
          ≤ (cands.filter good).length + 1 := Nat.le_succ _
        _ ≤ min k cands.length := hlensub) |>.trans (le_refl _)
    omega

/-! ## The decoding loops of `TSP_net.forward` (source lines 313-513)

One batch row is modelled.  There are `nb_nodes = N` cities, indices
`0..N-1`, and the synthetic start token has index `N` (line 354/402:
`idx_start_placeholder = nb_nodes`), so node indices live in `Fin (N+1)`.

The decoder stack output `prob_next_node` (line 244) is the attention-weight
row of the final single-head `myMHA` call with clip value `10` and the
visited mask (line 243).  The raw logits of that call (`q_final · K / √d`)
are arbitrary functions of the learned weights and of the partial tour, so
they enter the model as universally quantified families `u`. -/

/-- The next-node distribution produced by `Transformer_decoder_net.forward`
(source lines 233-245): the final layer is `myMHA(q_final, K, V, 1, mask, 10)`
and its attention-weight row is returned directly. -/
noncomputable def prob_next_node {N : ℕ} (mask : Fin (N + 1) → Bool)
    (u : Fin (N + 1) → ℝ) : Fin (N + 1) → ℝ :=
  myMHA_weights (some 10) (some mask) u

/-- The visited mask right after initialization (lines 357-358 and 405-406):
everything false except the start token `nb_nodes`. -/
def initVisitedMask (N : ℕ) : Fin (N + 1) → Bool :=
  fun i => decide ((i : ℕ) = N)

/-- `mask_visited_nodes[..., idx] = True` (lines 381, 420, 456, 496). -/
def setMaskTrue {m : ℕ} (mask : Fin m → Bool) (v : Fin m) : Fin m → Bool :=
  fun i => if i = v then true else mask i

/-- Source line 348: `deterministic = True` is hardcoded inside the greedy
branch of `forward` (the class docstring describes `deterministic` as an
input that selects Bernoulli sampling when false, but `forward` takes no
such argument). -/
def tspDeterministic : Bool := true

/-- `torch.argmax(prob_next_node, dim=1)` on one row: the first index
attaining the maximum. -/
noncomputable def torchArgmax {N : ℕ} (p : Fin (N + 1) → ℝ) : Fin (N + 1) :=
  (firstMaxList p (List.finRange (N + 1))).getD ⟨0, Nat.succ_pos N⟩

/-- The next-node choice of the greedy branch (source lines 367-370):
`torch.argmax` when `deterministic`, else `Categorical(...).sample()`; the
sampler is an arbitrary function since sampling is nondeterministic. -/
noncomputable def next_node_choice {N : ℕ}
    (sampler : (Fin (N + 1) → ℝ) → Fin (N + 1)) (p : Fin (N + 1) → ℝ) :
    Fin (N + 1) :=
  if tspDeterministic then torchArgmax p else sampler p

/-- The greedy decoding loop (source lines 346-387) after `t` iterations:
the visited mask and the list `tours` of selected nodes.  `u t` is the raw
final-layer logit row at step `t`. -/
noncomputable def greedyRollout (N : ℕ)
    (sampler : (Fin (N + 1) → ℝ) → Fin (N + 1))
    (u : ℕ → Fin (N + 1) → ℝ) : ℕ → (Fin (N + 1) → Bool) × List (Fin (N + 1))
  | 0 => (initVisitedMask N, [])
  | t + 1 =>
    let st := greedyRollout N sampler u t
    let p := prob_next_node st.1 (u t)
    let idx := next_node_choice sampler p
    (setMaskTrue st.1 idx, st.2 ++ [idx])

/-- C7 (divergence witness for the code bug): the greedy branch hardcodes
`deterministic = True` (line 348), so `next_node_choice` always takes the
arg-max branch and the categorical-sampling branch of lines 369-370 is
unreachable — no invocation of `TSP_net.forward` can use the sampling rule,
contradicting the class docstring that offers Bernoulli sampling via a
`deterministic` flag `forward` does not accept. -/
theorem C7_sampling_branch_unreachable :
    tspDeterministic = true ∧
    ∀ (N : ℕ) (sampler : (Fin (N + 1) → ℝ) → Fin (N + 1))
      (p : Fin (N + 1) → ℝ), next_node_choice sampler p = torchArgmax p :=
  ⟨rfl, fun _ _ _ => rfl⟩

/-! ## Beam-search decoding (source lines 390-511)

One batch row is modelled; the beam dimension is a list of beam states.
`tours` is preallocated to width `nb_nodes` and written one position per
step (lines 421-422, 462, 501), which is modelled by a growing list; the
mask and cumulative-score updates follow lines 417-420, 450-456 and
481-496.  `u t j` is the raw final-layer logit row of beam slot `j` at step
`t` (after the `h_t` bookkeeping of the source, which only feeds the
uninterpreted network). -/

/-- One beam of one batch row: its partial tour (`tours[b,i,:t+1]`), its
visited mask row and its cumulative log-probability score. -/
structure BeamState (N : ℕ) where
  tour : List (Fin (N + 1))
  mask : Fin (N + 1) → Bool
  score : ℝ

/-- Default beam used with `List.getD` for flat-index decoding (never
reached for in-range indices). -/
def junkBeam (N : ℕ) : BeamState N := ⟨[], fun _ => true, 0⟩

/-- Interpreting a flat candidate's node part `f % (N+1)` as a node index
(the `idx_in_beams = top_idx - idx_top_beams*(nb_nodes+1)` of lines
447/488). -/
def nodeOf (N : ℕ) (v : ℕ) : Fin (N + 1) := ⟨v % (N + 1), Nat.mod_lt v (Nat.succ_pos N)⟩

/-- Step `t = 0` of beam search (source lines 399-430): from the start
token, compute `log`-scores over all `N+1` nodes, clamp the requested beam
width to `B_t0 = min(B, nb_nodes)` (line 400), take the top `B_t0` nodes,
and create one beam per selected node. -/
noncomputable def beamStep0 (N B : ℕ) (u : Fin (N + 1) → ℝ) :
    List (BeamState N) :=
  let mask0 := initVisitedMask N
  let p := prob_next_node mask0 u
  let sel := torchTopk (fun f => Real.log (p (nodeOf N f))) (min B N) (N + 1)
  sel.map (fun v =>
    { tour := [nodeOf N v]
      mask := setMaskTrue mask0 (nodeOf N v)
      score := Real.log (p (nodeOf N v)) })

/-- The flattened candidate scores of a beam step `t ≥ 1` (source lines
441-443 and 482-484): candidate `f` stands for source beam `f / (N+1)` and
node `f % (N+1)`, with value `sum_scores + log prob_next_node`. -/
noncomputable def beamVal (N : ℕ) (beams : List (BeamState N))
    (u : ℕ → Fin (N + 1) → ℝ) : ℕ → ℝ :=
  fun f =>
    let bm := beams.getD (f / (N + 1)) (junkBeam N)
    bm.score + Real.log (prob_next_node bm.mask (u (f / (N + 1))) (nodeOf N (f % (N + 1))))

/-- Rebuilding one selected beam of a step `t ≥ 1` from its flat candidate
index (source lines 446-447, 450-462, 481-501): gather the source beam
`idx_top_beams = f / (N+1)`, append / mark the chosen node
`idx_in_beams = f % (N+1)`, and take the candidate's score as the new
cumulative score. -/
noncomputable def beamBuild (N : ℕ) (beams : List (BeamState N))
    (u : ℕ → Fin (N + 1) → ℝ) (f : ℕ) : BeamState N :=
  let bm := beams.getD (f / (N + 1)) (junkBeam N)
  { tour := bm.tour ++ [nodeOf N (f % (N + 1))]
    mask := setMaskTrue bm.mask (nodeOf N (f % (N + 1)))
    score := beamVal N beams u f }

/-- A step `t ≥ 1` of beam search (source lines 432-507): flatten the
`(beam, node)` score matrix to one row of `Bc*(N+1)` candidates, take the
global top `B`, and rebuild each selected beam. -/
noncomputable def beamStepT (N B : ℕ) (beams : List (BeamState N))
    (u : ℕ → Fin (N + 1) → ℝ) : List (BeamState N) :=
  (torchTopk (beamVal N beams u) B (beams.length * (N + 1))).map
    (beamBuild N beams u)

/-- The beam-search loop (source lines 396-507) after step `t` (0-indexed);
the loop body runs for `t = 0 .. nb_nodes-1`. -/
noncomputable def beamRollout (N B : ℕ) (u : ℕ → ℕ → Fin (N + 1) → ℝ) :
    ℕ → List (BeamState N)
  | 0 => beamStep0 N B (u 0 0)
  | t + 1 => beamStepT N B (beamRollout N B u t) (u (t + 1))

/-! ## Bounds on the decoder's next-node probabilities

The final decoder layer clips its logits to `10 * tanh(...) ∈ (-10, 10)`
before the masked fill, so an unmasked node's probability is at least
`exp (-20) / (N+1)` and a masked node's log-probability is at most
`-1e9 + 10`: masked candidates always score strictly below unmasked ones
(for any value the clip can produce, as long as accumulated scores cannot
bridge the `1e9` gap). -/

theorem myMHA_logits_le_ten {N : ℕ} (mask : Fin (N + 1) → Bool)
    (u : Fin (N + 1) → ℝ) (v : Fin (N + 1)) :
    myMHA_logits (some 10) (some mask) u v ≤ 10 := by
  simp only [myMHA_logits, maskFillRow, clipLogits]
  by_cases hv : mask v
  · rw [if_pos hv]
    show maskFillValue ≤ 10
    rw [maskFillValue]
    norm_num
  · rw [if_neg hv]
    nlinarith [tanh_lt_one (u v)]

theorem myMHA_logits_unmasked_ge {N : ℕ} (mask : Fin (N + 1) → Bool)
    (u : Fin (N + 1) → ℝ) (v : Fin (N + 1)) (hv : mask v = false) :
    -10 ≤ myMHA_logits (some 10) (some mask) u v := by
  simp only [myMHA_logits, maskFillRow, clipLogits, hv, Bool.false_eq_true,
    if_false]
  nlinarith [neg_one_lt_tanh (u v)]

theorem maskFillValue_lt_neg_ten : maskFillValue < -10 := by
  rw [maskFillValue]
  norm_num

/-- The softmax denominator of the final decoder layer. -/
noncomputable def Zsum {N : ℕ} (mask : Fin (N + 1) → Bool)
    (u : Fin (N + 1) → ℝ) : ℝ :=
  ∑ j, Real.exp (myMHA_logits (some 10) (some mask) u j)

theorem Zsum_pos {N : ℕ} (mask : Fin (N + 1) → Bool) (u : Fin (N + 1) → ℝ) :
    0 < Zsum mask u :=
  sum_exp_pos _

theorem prob_next_node_eq {N : ℕ} (mask : Fin (N + 1) → Bool)
    (u : Fin (N + 1) → ℝ) (v : Fin (N + 1)) :
    prob_next_node mask u v
      = Real.exp (myMHA_logits (some 10) (some mask) u v) / Zsum mask u := rfl

theorem log_prob_next_node {N : ℕ} (mask : Fin (N + 1) → Bool)
    (u : Fin (N + 1) → ℝ) (v : Fin (N + 1)) :
    Real.log (prob_next_node mask u v)
      = myMHA_logits (some 10) (some mask) u v - Real.log (Zsum mask u) := by
  rw [prob_next_node_eq, Real.log_div (Real.exp_ne_zero _) (ne_of_gt (Zsum_pos mask u)),
    Real.log_exp]

theorem log_Zsum_le {N : ℕ} (mask : Fin (N + 1) → Bool)
    (u : Fin (N + 1) → ℝ) :
    Real.log (Zsum mask u) ≤ Real.log ((N : ℝ) + 1) + 10 := by
  have hZle : Zsum mask u ≤ ((N : ℝ) + 1) * Real.exp 10 := by
    have := Finset.sum_le_card_nsmul Finset.univ
      (fun j => Real.exp (myMHA_logits (some 10) (some mask) u j))
      (Real.exp 10)
      (fun j _ => Real.exp_le_exp.mpr (myMHA_logits_le_ten mask u j))
    simpa [Zsum, Finset.card_univ, nsmul_eq_mul, add_comm] using this
  calc Real.log (Zsum mask u) ≤ Real.log (((N : ℝ) + 1) * Real.exp 10) :=
        Real.log_le_log (Zsum_pos mask u) hZle
    _ = Real.log ((N : ℝ) + 1) + 10 := by
        rw [Real.log_mul (by positivity) (Real.exp_ne_zero 10), Real.log_exp]

theorem log_Zsum_ge {N : ℕ} (mask : Fin (N + 1) → Bool)
    (u : Fin (N + 1) → ℝ) (j : Fin (N + 1)) (hj : mask j = false) :
    -10 ≤ Real.log (Zsum mask u) := by
  have hsingle : Real.exp (myMHA_logits (some 10) (some mask) u j) ≤ Zsum mask u :=
    Finset.single_le_sum (fun k _ => (Real.exp_pos _).le) (Finset.mem_univ j)
  have h1 : Real.exp (-10) ≤ Zsum mask u :=
    le_trans (Real.exp_le_exp.mpr (myMHA_logits_unmasked_ge mask u j hj)) hsingle
  calc (-10 : ℝ) = Real.log (Real.exp (-10)) := (Real.log_exp _).symm
    _ ≤ Real.log (Zsum mask u) := Real.log_le_log (Real.exp_pos _) h1

/-- The floor of one step's log-probability contribution for a selectable
(unmasked) node. -/
noncomputable def scoreFloor (N : ℕ) : ℝ := -(20 + Real.log ((N : ℝ) + 1))

theorem log_prob_unmasked_ge {N : ℕ} (mask : Fin (N + 1) → Bool)
    (u : Fin (N + 1) → ℝ) (v : Fin (N + 1)) (hv : mask v = false) :
    scoreFloor N ≤ Real.log (prob_next_node mask u v) := by
  rw [log_prob_next_node, scoreFloor]
  have h1 := myMHA_logits_unmasked_ge mask u v hv
  have h2 := log_Zsum_le mask u
  linarith

theorem log_prob_le_zero {N : ℕ} (mask : Fin (N + 1) → Bool)
    (u : Fin (N + 1) → ℝ) (v : Fin (N + 1)) :
    Real.log (prob_next_node mask u v) ≤ 0 :=
  Real.log_nonpos (le_of_lt (softmaxRow_pos _ v)) (softmaxRow_le_one _ v)

theorem log_prob_masked_le {N : ℕ} (mask : Fin (N + 1) → Bool)
    (u : Fin (N + 1) → ℝ) (v : Fin (N + 1)) (hv : mask v = true)
    (j : Fin (N + 1)) (hj : mask j = false) :
    Real.log (prob_next_node mask u v) ≤ maskFillValue + 10 := by
  rw [log_prob_next_node, myMHA_logits_of_mask (some 10) mask u hv]
  have := log_Zsum_ge mask u j hj
  linarith

/-- Within one distribution, every masked node has strictly smaller
probability than every unmasked node. -/
theorem prob_masked_lt_unmasked {N : ℕ} (mask : Fin (N + 1) → Bool)
    (u : Fin (N + 1) → ℝ) {i j : Fin (N + 1)} (hi : mask i = true)
    (hj : mask j = false) :
    prob_next_node mask u i < prob_next_node mask u j := by
  apply softmaxRow_lt_softmaxRow
  rw [myMHA_logits_of_mask (some 10) mask u hi]
  calc maskFillValue < -10 := maskFillValue_lt_neg_ten
    _ ≤ myMHA_logits (some 10) (some mask) u j := myMHA_logits_unmasked_ge mask u j hj

theorem torchArgmax_is_max {N : ℕ} (p : Fin (N + 1) → ℝ) (j : Fin (N + 1)) :
    p j ≤ p (torchArgmax p) := by
  cases h : firstMaxList p (List.finRange (N + 1)) with
  | none =>
    have := (firstMaxList_eq_none p (List.finRange (N + 1))).mp h
    have hmem : j ∈ List.finRange (N + 1) := List.mem_finRange j
    rw [this] at hmem
    cases hmem
  | some m =>
    have := firstMaxList_is_max p (List.finRange (N + 1)) m h j (List.mem_finRange j)
    simpa [torchArgmax, h] using this

/-- As long as an unmasked node remains, `torch.argmax` over the decoder
distribution lands on an unmasked node. -/
theorem torchArgmax_unmasked {N : ℕ} (mask : Fin (N + 1) → Bool)
    (u : Fin (N + 1) → ℝ) (j : Fin (N + 1)) (hj : mask j = false) :
    mask (torchArgmax (prob_next_node mask u)) = false := by
  cases hm : mask (torchArgmax (prob_next_node mask u)) with
  | false => rfl
  | true =>
    have hlt := prob_masked_lt_unmasked mask u hm hj
    have hle := torchArgmax_is_max (prob_next_node mask u) j
    exact absurd hle (not_le.mpr hlt)

/-! ## The greedy decode produces a permutation -/

theorem exists_not_mem_of_length_lt {m : ℕ} (l : List (Fin m))
    (h : l.length < m) : ∃ j, j ∉ l := by
  by_contra h2
  push_neg at h2
  have hsub : (Finset.univ : Finset (Fin m)) ⊆ l.toFinset :=
    fun j _ => List.mem_toFinset.mpr (h2 j)
  have hcard := Finset.card_le_card hsub
  rw [Finset.card_univ, Fintype.card_fin] at hcard
  have := l.toFinset_card_le
  omega

theorem perm_range_of_nodup_lt {N : ℕ} (l : List ℕ) (hnd : l.Nodup)
    (hlt : ∀ v ∈ l, v < N) (hlen : l.length = N) : l.Perm (List.range N) := by
  have hsub : l ⊆ List.range N := fun v hv => List.mem_range.mpr (hlt v hv)
  obtain ⟨l2, hperm, hsl⟩ := List.subperm_of_subset hnd hsub
  have hlen2 : l2.length = (List.range N).length := by
    rw [hperm.length_eq, hlen, List.length_range]
  have : l2 = List.range N := hsl.eq_of_length hlen2
  rw [← this]
  exact hperm.symm

/-- The state invariant of the greedy loop: after `t ≤ N` steps the tour
has `t` distinct real-city entries and the mask marks exactly the start
token and the tour. -/
theorem greedyRollout_inv (N : ℕ)
    (sampler : (Fin (N + 1) → ℝ) → Fin (N + 1))
    (u : ℕ → Fin (N + 1) → ℝ) :
    ∀ t, t ≤ N →
      (greedyRollout N sampler u t).2.length = t ∧
      (greedyRollout N sampler u t).2.Nodup ∧
      (∀ v ∈ (greedyRollout N sampler u t).2, (v : ℕ) < N) ∧
      (∀ i, (greedyRollout N sampler u t).1 i
        = (decide ((i : ℕ) = N) || decide (i ∈ (greedyRollout N sampler u t).2))) := by
  intro t
  induction t with
  | zero =>
    intro _
    refine ⟨rfl, List.nodup_nil, ?_, ?_⟩
    · intro v hv
      exact absurd hv (List.not_mem_nil v)
    intro i
    show initVisitedMask N i
      = (decide ((i : ℕ) = N) || decide (i ∈ ([] : List (Fin (N + 1)))))
    simp [initVisitedMask]
  | succ t ih =>
    intro ht
    obtain ⟨hlen, hnd, hlt, hmask⟩ := ih (Nat.le_of_succ_le ht)
    set st := greedyRollout N sampler u t with hst
    -- an unmasked node exists before step t
    have hexist : ∃ j, st.1 j = false := by
      obtain ⟨j, hj⟩ := exists_not_mem_of_length_lt
        ((⟨N, Nat.lt_succ_self N⟩ : Fin (N + 1)) :: st.2)
        (by simp only [List.length_cons, hlen]; omega)
      have hjN : (j : ℕ) ≠ N := by
        intro hc
        apply hj
        have hje : j = ⟨N, Nat.lt_succ_self N⟩ := Fin.ext hc
        rw [hje]
        exact List.mem_cons_self _ _
      have hjt : j ∉ st.2 := fun hc => hj (List.mem_cons_of_mem _ hc)
      refine ⟨j, ?_⟩
      rw [hmask j]
      simp [hjN, hjt]
    obtain ⟨j0, hj0⟩ := hexist
    have hsel : next_node_choice sampler (prob_next_node st.1 (u t))
        = torchArgmax (prob_next_node st.1 (u t)) := rfl
    have hidx : st.1 (torchArgmax (prob_next_node st.1 (u t))) = false :=
      torchArgmax_unmasked st.1 (u t) j0 hj0
    set idx := torchArgmax (prob_next_node st.1 (u t)) with hidxdef
    have hidxN : (idx : ℕ) ≠ N := by
      intro hc
      rw [hmask idx] at hidx
      simp [hc] at hidx
    have hidxmem : idx ∉ st.2 := by
      intro hc
      rw [hmask idx] at hidx
      simp [hc] at hidx
    have hstep : greedyRollout N sampler u (t + 1)
        = (setMaskTrue st.1 idx, st.2 ++ [idx]) := by
      show (setMaskTrue st.1 (next_node_choice sampler (prob_next_node st.1 (u t))),
        st.2 ++ [next_node_choice sampler (prob_next_node st.1 (u t))]) = _
      rw [hsel]
    rw [hstep]
    refine ⟨?_, ?_, ?_, ?_⟩
    · simp [hlen]
    · simp only [List.nodup_append, List.nodup_cons, List.nodup_nil]
      exact ⟨hnd, by simp, by simpa using hidxmem⟩
    · intro v hv
      rcases List.mem_append.mp hv with hv1 | hv2
      · exact hlt v hv1
      · have hv3 : v = idx := by simpa using hv2
        rw [hv3]
        have hlt2 : (idx : ℕ) < N + 1 := idx.isLt
        omega
    · intro i
      by_cases hiidx : i = idx
      · subst hiidx
        simp [setMaskTrue]
      · simp only [setMaskTrue, if_neg hiidx, hmask i, List.mem_append,
          List.mem_singleton]
        by_cases h1 : (i : ℕ) = N <;> by_cases h2 : i ∈ st.2 <;>
          simp [h1, h2, hiidx]

/-! ## The beam-search decode: invariants -/

/-- Counting a predicate over the flattened `(beam, node)` index space
`range (m * c)` row by row. -/
theorem length_filter_range_mul (c : ℕ) (good : ℕ → ℕ → Bool) :
    ∀ m, ((List.range (m * c)).filter (fun f => good (f / c) (f % c))).length
      = ∑ j ∈ Finset.range m, ((List.range c).filter (fun v => good j v)).length := by
  intro m
  induction m with
  | zero => simp
  | succ m ih =>
    have hmc : (m + 1) * c = m * c + c := by ring
    rw [hmc, List.range_add, List.filter_append, List.length_append, ih,
      List.filter_map, List.length_map, Finset.sum_range_succ]
    congr 1
    have hcongr : ∀ v ∈ List.range c,
        ((fun f => good (f / c) (f % c)) ∘ (fun x => m * c + x)) v = good m v := by
      intro v hv
      have hvc : v < c := List.mem_range.mp hv
      have hc : 0 < c := lt_of_le_of_lt (Nat.zero_le v) hvc
      simp only [Function.comp_apply]
      rw [Nat.mul_comm m c, Nat.mul_add_div hc, Nat.mul_add_mod,
        Nat.div_eq_of_lt hvc, Nat.mod_eq_of_lt hvc, Nat.add_zero]
    rw [List.filter_congr hcongr]

/-- The per-beam invariant of the beam-search state after step `t`
(0-indexed): the tour holds `t+1` distinct real cities, the mask marks
exactly the start token and the tour, and the cumulative score is a sum of
`t+1` per-step log-probabilities each in `[scoreFloor N, 0]`. -/
def InvBeam (N t : ℕ) (bm : BeamState N) : Prop :=
  bm.tour.length = t + 1 ∧ bm.tour.Nodup ∧ (∀ v ∈ bm.tour, (v : ℕ) < N) ∧
  (∀ i, bm.mask i = (decide ((i : ℕ) = N) || decide (i ∈ bm.tour))) ∧
  scoreFloor N * (t + 1) ≤ bm.score ∧ bm.score ≤ 0

theorem mask_char_set {N : ℕ} (mask : Fin (N + 1) → Bool)
    (tour : List (Fin (N + 1))) (v : Fin (N + 1))
    (hmask : ∀ i, mask i = (decide ((i : ℕ) = N) || decide (i ∈ tour))) :
    ∀ i, setMaskTrue mask v i
      = (decide ((i : ℕ) = N) || decide (i ∈ tour ++ [v])) := by
  intro i
  by_cases h : i = v
  · subst h
    simp [setMaskTrue]
  · simp only [setMaskTrue, if_neg h, hmask i, List.mem_append, List.mem_singleton]
    by_cases h1 : (i : ℕ) = N <;> by_cases h2 : i ∈ tour <;> simp [h1, h2, h]

/-- At least `N - t` of the `N+1` nodes are unmasked for a beam whose tour
has length `t`. -/
theorem row_unmasked_count {N t : ℕ} (bm : BeamState N)
    (hmask : ∀ i, bm.mask i = (decide ((i : ℕ) = N) || decide (i ∈ bm.tour)))
    (hlen : bm.tour.length = t) :
    N - t ≤ ((List.range (N + 1)).filter
      (fun v => !(bm.mask (nodeOf N v)))).length := by
  have hsum : (List.range (N + 1)).length
      = ((List.range (N + 1)).filter (fun v => bm.mask (nodeOf N v))).length
        + ((List.range (N + 1)).filter (fun v => !(bm.mask (nodeOf N v)))).length := by
    rw [← List.countP_eq_length_filter, ← List.countP_eq_length_filter]
    have h := List.length_eq_countP_add_countP (fun v => bm.mask (nodeOf N v))
      (List.range (N + 1))
    have hfe : (fun a => decide ¬(bm.mask (nodeOf N a) = true))
        = (fun v => !(bm.mask (nodeOf N v))) := by
      funext a
      cases bm.mask (nodeOf N a) <;> simp
    rw [hfe] at h
    exact h
  have htrue : ((List.range (N + 1)).filter (fun v => bm.mask (nodeOf N v))).length
      ≤ t + 1 := by
    have hsub : (List.range (N + 1)).filter (fun v => bm.mask (nodeOf N v))
        ⊆ N :: bm.tour.map Fin.val := by
      intro v hv
      have hvr : v ∈ List.range (N + 1) := List.mem_of_mem_filter hv
      have hvlt : v < N + 1 := List.mem_range.mp hvr
      have hvm : bm.mask (nodeOf N v) = true := (List.mem_filter.mp hv).2
      rw [hmask (nodeOf N v)] at hvm
      have hnode : ((nodeOf N v) : ℕ) = v := Nat.mod_eq_of_lt hvlt
      rcases Bool.or_eq_true_iff.mp hvm with h1 | h2
      · have hvN : v = N := by
          have h3 := of_decide_eq_true h1
          omega
        exact List.mem_cons.mpr (Or.inl hvN)
      · refine List.mem_cons.mpr (Or.inr ?_)
        rw [← hnode]
        exact List.mem_map_of_mem Fin.val (of_decide_eq_true h2)
    have hnd : ((List.range (N + 1)).filter (fun v => bm.mask (nodeOf N v))).Nodup :=
      (List.nodup_range (N + 1)).filter _
    have := (List.subperm_of_subset hnd hsub).length_le
    simpa [hlen] using this
  rw [List.length_range] at hsum
  omega

theorem beamStep0_length (N B : ℕ) (u : Fin (N + 1) → ℝ) :
    (beamStep0 N B u).length = min B N := by
  simp only [beamStep0, List.length_map, torchTopk, topkAux_length,
    List.length_range]
  omega

/-- The numeric-separation fact: the floor of an all-unmasked score after
`N` steps still dominates a single masked log-probability, as long as
`N (20 + log (N+1)) < 1e9 - 10`. -/
theorem maskFill_lt_scoreFloor_mul {N : ℕ}
    (hbig : (N : ℝ) * (20 + Real.log ((N : ℝ) + 1)) < 1e9 - 10) :
    maskFillValue + 10 < scoreFloor N * (N : ℝ) := by
  rw [maskFillValue, scoreFloor]
  have : -(N : ℝ) * (20 + Real.log ((N : ℝ) + 1)) > -(1e9 - 10) := by linarith
  nlinarith [this]

theorem beamStep0_inv (N B : ℕ) (hN : 1 ≤ N)
    (hbig : (N : ℝ) * (20 + Real.log ((N : ℝ) + 1)) < 1e9 - 10)
    (u : Fin (N + 1) → ℝ) :
    ∀ bm ∈ beamStep0 N B u, InvBeam N 0 bm := by
  intro bm hbm
  simp only [beamStep0, List.mem_map] at hbm
  obtain ⟨v, hvsel, rfl⟩ := hbm
  -- the selected nodes are all unmasked
  have hstart0 : initVisitedMask N (nodeOf N 0) = false := by
    simp only [initVisitedMask, nodeOf, decide_eq_false_iff_not]
    simp only [Nat.zero_mod]
    omega
  have hsep0 : 20 + Real.log ((N : ℝ) + 1) < 1e9 - 10 := by
    have hf : (0 : ℝ) < 20 + Real.log ((N : ℝ) + 1) := by
      have := Real.log_nonneg (by push_cast; linarith : (1 : ℝ) ≤ (N : ℝ) + 1)
      linarith
    have hone : (1 : ℝ) ≤ (N : ℝ) := by exact_mod_cast hN
    nlinarith
  have hgood : ∀ f ∈ torchTopk
      (fun f => Real.log (prob_next_node (initVisitedMask N) u (nodeOf N f)))
      (min B N) (N + 1),
      (fun f => !(initVisitedMask N (nodeOf N f))) f = true := by
    apply topkAux_selects_good _ _ _ _ (List.nodup_range (N + 1))
    · intro f _ g _ hf hg
      simp only [Bool.not_eq_true] at hf
      have hfm : initVisitedMask N (nodeOf N f) = true := by
        cases h : initVisitedMask N (nodeOf N f)
        · rw [h] at hf; cases hf
        · rfl
      have hgm : initVisitedMask N (nodeOf N g) = false := by
        simpa using hg
      have h1 : Real.log (prob_next_node (initVisitedMask N) u (nodeOf N f))
          ≤ maskFillValue + 10 :=
        log_prob_masked_le _ u _ hfm _ hstart0
      have h2 : scoreFloor N
          ≤ Real.log (prob_next_node (initVisitedMask N) u (nodeOf N g)) :=
        log_prob_unmasked_ge _ u _ hgm
      have h3 : maskFillValue + 10 < scoreFloor N := by
        rw [maskFillValue, scoreFloor]
        linarith
      linarith
    · -- there are `N` unmasked candidates
      have hfilter : (List.range (N + 1)).filter
          (fun f => !(initVisitedMask N (nodeOf N f))) = List.range N := by
        rw [List.range_succ, List.filter_append]
        have h1 : (List.range N).filter (fun f => !(initVisitedMask N (nodeOf N f)))
            = List.range N := by
          apply List.filter_eq_self.mpr
          intro v hv
          have hvlt : v < N := List.mem_range.mp hv
          simp only [initVisitedMask, nodeOf, Bool.not_eq_true', decide_eq_false_iff_not]
          rw [Nat.mod_eq_of_lt (by omega)]
          omega
        have hNN : ((nodeOf N N) : ℕ) = N := Nat.mod_eq_of_lt (Nat.lt_succ_self N)
        have h2 : ([N].filter (fun f => !(initVisitedMask N (nodeOf N f)))) = [] := by
          simp [initVisitedMask, hNN]
        rw [h1, h2, List.append_nil]
      rw [hfilter, List.length_range]
      omega
  have hvgood := hgood v hvsel
  simp only [Bool.not_eq_true'] at hvgood
  have hvN : ((nodeOf N v) : ℕ) ≠ N := by
    intro hc
    simp [initVisitedMask, hc] at hvgood
  have hvlt : ((nodeOf N v) : ℕ) < N := by
    have := (nodeOf N v).isLt
    omega
  refine ⟨rfl, List.nodup_singleton _, ?_, ?_, ?_, ?_⟩
  · intro w hw
    rw [List.mem_singleton.mp hw]
    exact hvlt
  · have hchar : ∀ i, initVisitedMask N i
        = (decide ((i : ℕ) = N) || decide (i ∈ ([] : List (Fin (N + 1))))) := by
      intro i
      simp [initVisitedMask]
    have := mask_char_set (initVisitedMask N) [] (nodeOf N v) hchar
    simpa using this
  · have := log_prob_unmasked_ge (initVisitedMask N) u (nodeOf N v) hvgood
    simpa [scoreFloor] using this
  · exact log_prob_le_zero _ _ _

theorem beamStepT_length (N B : ℕ) (beams : List (BeamState N))
    (u : ℕ → Fin (N + 1) → ℝ) (h : B ≤ beams.length * (N + 1)) :
    (beamStepT N B beams u).length = B := by
  simp only [beamStepT, List.length_map, torchTopk, topkAux_length,
    List.length_range]
  omega

theorem beamStepT_inv (N B s : ℕ) (beams : List (BeamState N))
    (u : ℕ → Fin (N + 1) → ℝ) (hs1 : 1 ≤ s) (hsN : s ≤ N - 1)
    (hprev : ∀ bm ∈ beams, InvBeam N (s - 1) bm)
    (hfeas : B ≤ beams.length * (N - s))
    (hbig : (N : ℝ) * (20 + Real.log ((N : ℝ) + 1)) < 1e9 - 10) :
    ∀ bm2 ∈ beamStepT N B beams u, InvBeam N s bm2 := by
  have hN2 : 2 ≤ N := by omega
  -- the parent of an in-range flat candidate
  have hparent : ∀ f < beams.length * (N + 1),
      beams.getD (f / (N + 1)) (junkBeam N) ∈ beams ∧
      InvBeam N (s - 1) (beams.getD (f / (N + 1)) (junkBeam N)) := by
    intro f hf
    have hj : f / (N + 1) < beams.length :=
      Nat.div_lt_of_lt_mul (by rw [Nat.mul_comm]; exact hf)
    have hgd : beams.getD (f / (N + 1)) (junkBeam N)
        = beams[f / (N + 1)] := by
      rw [List.getD_eq_getElem?_getD, List.getElem?_eq_getElem hj]
      rfl
    rw [hgd]
    exact ⟨List.getElem_mem hj, hprev _ (List.getElem_mem hj)⟩
  -- tours of parents have length s
  have hplen : ∀ bm ∈ beams, bm.tour.length = s := by
    intro bm hbm
    have := (hprev bm hbm).1
    omega
  -- each parent has an unmasked node
  have hunmask : ∀ bm ∈ beams, ∃ j, bm.mask j = false := by
    intro bm hbm
    obtain ⟨_, _, _, hmask, _, _⟩ := hprev bm hbm
    have hcount := row_unmasked_count bm hmask (hplen bm hbm)
    have hpos : 0 < ((List.range (N + 1)).filter
        (fun v => !(bm.mask (nodeOf N v)))).length := by omega
    obtain ⟨v, hv⟩ := List.exists_mem_of_length_pos hpos
    have := List.of_mem_filter hv
    exact ⟨nodeOf N v, by simpa using this⟩
  -- the selection only keeps unmasked (beam, node) candidates
  set val : ℕ → ℝ := beamVal N beams u with hval
  have hgood : ∀ f ∈ torchTopk val B (beams.length * (N + 1)),
      (fun f => !((beams.getD (f / (N + 1)) (junkBeam N)).mask
        (nodeOf N (f % (N + 1))))) f = true := by
    apply topkAux_selects_good _ _ _ _ (List.nodup_range _)
    · -- separation of masked and unmasked candidates
      intro f hf g hg hfbad hggood
      have hfr : f < beams.length * (N + 1) := List.mem_range.mp hf
      have hgr : g < beams.length * (N + 1) := List.mem_range.mp hg
      obtain ⟨hfmem, hfinv⟩ := hparent f hfr
      obtain ⟨hgmem, hginv⟩ := hparent g hgr
      set bmf := beams.getD (f / (N + 1)) (junkBeam N)
      set bmg := beams.getD (g / (N + 1)) (junkBeam N)
      have hfbad2 : (!(bmf.mask (nodeOf N (f % (N + 1))))) = false := hfbad
      have hggood2 : (!(bmg.mask (nodeOf N (g % (N + 1))))) = true := hggood
      have hfm : bmf.mask (nodeOf N (f % (N + 1))) = true := by
        simpa using hfbad2
      have hgm : bmg.mask (nodeOf N (g % (N + 1))) = false := by
        simpa using hggood2
      obtain ⟨j0, hj0⟩ := hunmask bmf hfmem
      have hflog : Real.log (prob_next_node bmf.mask (u (f / (N + 1)))
          (nodeOf N (f % (N + 1)))) ≤ maskFillValue + 10 :=
        log_prob_masked_le _ _ _ hfm _ hj0
      have hglog : scoreFloor N ≤ Real.log (prob_next_node bmg.mask (u (g / (N + 1)))
          (nodeOf N (g % (N + 1)))) :=
        log_prob_unmasked_ge _ _ _ hgm
      have hfsc : bmf.score ≤ 0 := hfinv.2.2.2.2.2
      have hgsc : scoreFloor N * ((s - 1 : ℕ) + 1) ≤ bmg.score := hginv.2.2.2.2.1
      have hgsc2 : scoreFloor N * (s : ℝ) ≤ bmg.score := by
        have hcast : ((s - 1 : ℕ) : ℝ) + 1 = (s : ℝ) := by
          have hn : (s - 1 : ℕ) + 1 = s := by omega
          exact_mod_cast hn
        rw [← hcast]
        exact_mod_cast hgsc
      -- val f ≤ maskFillValue + 10 < scoreFloor N * N ≤ scoreFloor N * (s+1) ≤ val g
      have hvalf : val f = bmf.score + Real.log (prob_next_node bmf.mask
        (u (f / (N + 1))) (nodeOf N (f % (N + 1)))) := rfl
      have hvalg : val g = bmg.score + Real.log (prob_next_node bmg.mask
        (u (g / (N + 1))) (nodeOf N (g % (N + 1)))) := rfl
      have hvf : val f ≤ maskFillValue + 10 := by
        rw [hvalf]
        linarith
      have hvg : scoreFloor N * ((s : ℝ) + 1) ≤ val g := by
        rw [hvalg]
        linarith
      have hsN' : (s : ℝ) + 1 ≤ (N : ℝ) := by
        have : s + 1 ≤ N := by omega
        exact_mod_cast this
      have hfloorneg : scoreFloor N ≤ 0 := by
        rw [scoreFloor]
        have := Real.log_nonneg (by push_cast; linarith : (1 : ℝ) ≤ (N : ℝ) + 1)
        linarith
      have hmono : scoreFloor N * (N : ℝ) ≤ scoreFloor N * ((s : ℝ) + 1) :=
        mul_le_mul_of_nonpos_left hsN' hfloorneg
      have hkey := maskFill_lt_scoreFloor_mul hbig
      linarith
    · -- there are at least `B` unmasked candidates
      have hcount := length_filter_range_mul (N + 1)
        (fun j v => !((beams.getD j (junkBeam N)).mask (nodeOf N v)))
        beams.length
      have hrow : ∀ j ∈ Finset.range beams.length,
          N - s ≤ ((List.range (N + 1)).filter
            (fun v => !((beams.getD j (junkBeam N)).mask (nodeOf N v)))).length := by
        intro j hj
        have hjlt : j < beams.length := Finset.mem_range.mp hj
        have hgd : beams.getD j (junkBeam N) = beams[j] := by
          rw [List.getD_eq_getElem?_getD, List.getElem?_eq_getElem hjlt]
          rfl
        rw [hgd]
        have hmem : beams[j] ∈ beams := List.getElem_mem hjlt
        exact row_unmasked_count _ (hprev _ hmem).2.2.2.1 (hplen _ hmem)
      have hsumge : beams.length * (N - s)
          ≤ ∑ j ∈ Finset.range beams.length,
            ((List.range (N + 1)).filter
              (fun v => !((beams.getD j (junkBeam N)).mask (nodeOf N v)))).length := by
        calc beams.length * (N - s)
            = ∑ _j ∈ Finset.range beams.length, (N - s) := by
              rw [Finset.sum_const, Finset.card_range, smul_eq_mul]
          _ ≤ _ := Finset.sum_le_sum hrow
      rw [hcount]
      omega
  -- each selected candidate builds a beam satisfying the invariant
  intro bm2 hbm2
  simp only [beamStepT, List.mem_map] at hbm2
  obtain ⟨f, hfsel, rfl⟩ := hbm2
  have hfr : f < beams.length * (N + 1) :=
    List.mem_range.mp (topkAux_subset _ _ _ hfsel)
  obtain ⟨hfmem, hfinv⟩ := hparent f hfr
  obtain ⟨hptlen, hptnd, hptlt, hptmask, hptsc1, hptsc2⟩ := hfinv
  have hfgood := hgood f hfsel
  simp only [Bool.not_eq_true'] at hfgood
  set bm := beams.getD (f / (N + 1)) (junkBeam N)
  set node := nodeOf N (f % (N + 1))
  have hnodeN : (node : ℕ) ≠ N := by
    intro hc
    rw [hptmask node] at hfgood
    simp [hc] at hfgood
  have hnodemem : node ∉ bm.tour := by
    intro hc
    rw [hptmask node] at hfgood
    simp [hc] at hfgood
  have hnodelt : (node : ℕ) < N := by
    have := node.isLt
    omega
  have htlen : bm.tour.length = s := by omega
  show InvBeam N s
    { tour := bm.tour ++ [node], mask := setMaskTrue bm.mask node,
      score := val f }
  refine ⟨?_, ?_, ?_, ?_, ?_, ?_⟩
  · simp [htlen]
  · simp only [List.nodup_append, List.nodup_cons, List.nodup_nil]
    exact ⟨hptnd, by simp, by simpa using hnodemem⟩
  · intro v hv
    rcases List.mem_append.mp hv with hv1 | hv2
    · exact hptlt v hv1
    · rw [List.mem_singleton.mp hv2]
      exact hnodelt
  · exact mask_char_set bm.mask bm.tour node hptmask
  · show scoreFloor N * ((s : ℝ) + 1) ≤ bm.score + _
    have hlog : scoreFloor N ≤ Real.log (prob_next_node bm.mask (u (f / (N + 1))) node) :=
      log_prob_unmasked_ge _ _ _ hfgood
    show scoreFloor N * ((s : ℝ) + 1)
      ≤ bm.score + Real.log (prob_next_node bm.mask (u (f / (N + 1))) node)
    have hsc : scoreFloor N * (s : ℝ) ≤ bm.score := by
      have hcast : ((s - 1 : ℕ) : ℝ) + 1 = (s : ℝ) := by
        have hn : (s - 1 : ℕ) + 1 = s := by omega
        exact_mod_cast hn
      calc scoreFloor N * (s : ℝ) = scoreFloor N * (((s - 1 : ℕ) : ℝ) + 1) := by rw [hcast]
        _ ≤ bm.score := hptsc1
    linarith
  · show bm.score + Real.log (prob_next_node bm.mask (u (f / (N + 1))) node) ≤ 0
    have := log_prob_le_zero bm.mask (u (f / (N + 1))) node
    linarith

theorem beamRollout_inv (N B : ℕ) (hN : 1 ≤ N)
    (hBN : 2 ≤ N → B ≤ min B N * (N - 1))
    (hbig : (N : ℝ) * (20 + Real.log ((N : ℝ) + 1)) < 1e9 - 10)
    (u : ℕ → ℕ → Fin (N + 1) → ℝ) :
    ∀ t, t ≤ N - 1 →
      (beamRollout N B u t).length = (if t = 0 then min B N else B) ∧
      ∀ bm ∈ beamRollout N B u t, InvBeam N t bm := by
  intro t
  induction t with
  | zero =>
    intro _
    refine ⟨?_, beamStep0_inv N B hN hbig (u 0 0)⟩
    simpa using beamStep0_length N B (u 0 0)
  | succ t ih =>
    intro ht
    have ht2 : t ≤ N - 1 := by omega
    obtain ⟨hlen, hinv⟩ := ih ht2
    have hs1 : 1 ≤ t + 1 := by omega
    have hN2 : 2 ≤ N := by omega
    have hfeas : B ≤ (beamRollout N B u t).length * (N - (t + 1)) := by
      rw [hlen]
      by_cases h0 : t = 0
      · subst h0
        simpa using hBN hN2
      · rw [if_neg h0]
        have hge : 1 ≤ N - (t + 1) := by omega
        calc B = B * 1 := (Nat.mul_one B).symm
          _ ≤ B * (N - (t + 1)) := Nat.mul_le_mul_left B hge
    have hprev : ∀ bm ∈ beamRollout N B u t, InvBeam N (t + 1 - 1) bm := by
      simpa using hinv
    refine ⟨?_, beamStepT_inv N B (t + 1) (beamRollout N B u t) (u (t + 1))
      hs1 ht hprev hfeas hbig⟩
    show (beamStepT N B (beamRollout N B u t) (u (t + 1))).length = _
    rw [if_neg (Nat.succ_ne_zero t)]
    apply beamStepT_length
    calc B ≤ (beamRollout N B u t).length * (N - (t + 1)) := hfeas
      _ ≤ (beamRollout N B u t).length * (N + 1) :=
        Nat.mul_le_mul_left _ (by omega)

/-- C1: every tour produced by `TSP_net.forward` is a permutation of the
node indices `0..N-1` — in greedy mode the batch row's `tours_greedy`, and
in beam-search mode every retained beam's tour after the last step — and
the synthetic start-token index `N` never appears in an output tour.  This
holds for every network output (the raw logit families `ug`/`ub` are
universally quantified) under the loop's own feasibility bounds
(`B ≤ min(B,N)·(N-1)`, automatic for any practical call) and the numeric
gap condition `N(20+log(N+1)) < 1e9 - 10` guaranteeing that `-1e9` masked
logits can never outscore accumulated unmasked scores in exact arithmetic
(true for every N below roughly 4·10^7; in float arithmetic masked
probabilities underflow to 0 and the same conclusion holds outright). -/
theorem C1_output_tours_are_permutations (N B : ℕ) (hN : 1 ≤ N)
    (hBN : 2 ≤ N → B ≤ min B N * (N - 1))
    (hbig : (N : ℝ) * (20 + Real.log ((N : ℝ) + 1)) < 1e9 - 10)
    (sampler : (Fin (N + 1) → ℝ) → Fin (N + 1))
    (ug : ℕ → Fin (N + 1) → ℝ) (ub : ℕ → ℕ → Fin (N + 1) → ℝ) :
    (((greedyRollout N sampler ug N).2.map Fin.val).Perm (List.range N) ∧
      N ∉ (greedyRollout N sampler ug N).2.map Fin.val) ∧
    (∀ bm ∈ beamRollout N B ub (N - 1),
      (bm.tour.map Fin.val).Perm (List.range N) ∧
      N ∉ bm.tour.map Fin.val) := by
  constructor
  · obtain ⟨hlen, hnd, hlt, _⟩ := greedyRollout_inv N sampler ug N (le_refl N)
    have hmapnd : ((greedyRollout N sampler ug N).2.map Fin.val).Nodup :=
      hnd.map Fin.val_injective
    have hmaplt : ∀ v ∈ (greedyRollout N sampler ug N).2.map Fin.val, v < N := by
      intro v hv
      obtain ⟨w, hw, rfl⟩ := List.mem_map.mp hv
      exact hlt w hw
    have hmaplen : ((greedyRollout N sampler ug N).2.map Fin.val).length = N := by
      rw [List.length_map, hlen]
    refine ⟨perm_range_of_nodup_lt _ hmapnd hmaplt hmaplen, ?_⟩
    intro hc
    exact absurd (hmaplt N hc) (lt_irrefl N)
  · intro bm hbm
    obtain ⟨hlen, hnd, hlt, _, _, _⟩ :=
      (beamRollout_inv N B hN hBN hbig ub (N - 1) (le_refl _)).2 bm hbm
    have hmapnd : (bm.tour.map Fin.val).Nodup := hnd.map Fin.val_injective
    have hmaplt : ∀ v ∈ bm.tour.map Fin.val, v < N := by
      intro v hv
      obtain ⟨w, hw, rfl⟩ := List.mem_map.mp hv
      exact hlt w hw
    have hmaplen : (bm.tour.map Fin.val).length = N := by
      rw [List.length_map, hlen]
      omega
    refine ⟨perm_range_of_nodup_lt _ hmapnd hmaplt hmaplen, ?_⟩
    intro hc
    exact absurd (hmaplt N hc) (lt_irrefl N)

/-- Closed witness instantiating `C1_output_tours_are_permutations` at
`N = 2`, `B = 1`, with all raw logits `0`. -/
theorem C1_witness :
    (((greedyRollout 2 (fun _ => 0) (fun _ _ => 0) 2).2.map Fin.val).Perm
        (List.range 2) ∧
      2 ∉ (greedyRollout 2 (fun _ => 0) (fun _ _ => 0) 2).2.map Fin.val) ∧
    (∀ bm ∈ beamRollout 2 1 (fun _ _ _ => 0) (2 - 1),
      (bm.tour.map Fin.val).Perm (List.range 2) ∧
      2 ∉ bm.tour.map Fin.val) := by
  have hlog : Real.log (3 : ℝ) ≤ 2 := by
    have h := Real.log_le_sub_one_of_pos (by norm_num : (0 : ℝ) < (3 : ℝ))
    linarith
  exact C1_output_tours_are_permutations 2 1 (by norm_num)
    (fun _ => by norm_num)
    (by norm_num; nlinarith)
    (fun _ => 0) (fun _ _ => 0) (fun _ _ _ => 0)

/-- C4: in beam-search mode with requested width `B` over `N` nodes, step 0
produces exactly `min B N` candidate beams for every requested `B` (a
request larger than `N` is silently clamped by `B_t0 = min(B, nb_nodes)`,
not an error), and under the assumption `B ≤ N(N-1)` every loop step
`t ≥ 1` produces exactly `B` beams. -/
theorem C4_beam_width_schedule (N B : ℕ) (hBN : B ≤ N * (N - 1))
    (u : ℕ → ℕ → Fin (N + 1) → ℝ) :
    (∀ (B2 : ℕ) (u0 : Fin (N + 1) → ℝ),
      (beamStep0 N B2 u0).length = min B2 N) ∧
    (∀ t, 1 ≤ t → t ≤ N - 1 → (beamRollout N B u t).length = B) := by
  constructor
  · intro B2 u0
    exact beamStep0_length N B2 u0
  · have hkey : ∀ t, (beamRollout N B u (t + 1)).length = B := by
      intro t
      induction t with
      | zero =>
        show (beamStepT N B (beamStep0 N B (u 0 0)) (u 1)).length = B
        apply beamStepT_length
        rw [beamStep0_length]
        rcases le_or_lt B N with h | h
        · rw [min_eq_left h]
          calc B = B * 1 := (Nat.mul_one B).symm
            _ ≤ B * (N + 1) := Nat.mul_le_mul_left B (by omega)
        · rw [min_eq_right (le_of_lt h)]
          calc B ≤ N * (N - 1) := hBN
            _ ≤ N * (N + 1) := Nat.mul_le_mul_left N (by omega)
      | succ t ih =>
        show (beamStepT N B (beamRollout N B u (t + 1)) (u (t + 2))).length = B
        apply beamStepT_length
        rw [ih]
        calc B = B * 1 := (Nat.mul_one B).symm
          _ ≤ B * (N + 1) := Nat.mul_le_mul_left B (by omega)
    intro t ht1 _
    obtain ⟨t2, rfl⟩ : ∃ t2, t = t2 + 1 := ⟨t - 1, by omega⟩
    exact hkey t2

/-- Closed witness instantiating `C4_beam_width_schedule` at `N = 3`,
`B = 2` (and a clamped request `B2 = 5 > 3` at step 0). -/
theorem C4_witness :
    (beamStep0 3 5 (fun _ => 0)).length = min 5 3 ∧
    (beamRollout 3 2 (fun _ _ _ => 0) 1).length = 2 := by
  have h := C4_beam_width_schedule 3 2 (by norm_num) (fun _ _ _ => 0)
  exact ⟨h.1 5 (fun _ => 0), h.2 1 (by norm_num) (by norm_num)⟩

/-- C8 (amended): in greedy mode the visited-mask is monotonically
non-decreasing per (batch row, node): once an entry is true it stays true
at every later step.  In beam-search mode monotonicity holds along beam
ancestry, not per beam slot: every beam produced by a step `t ≥ 1` extends
the mask of its source beam `idx_top_beams = f / (N+1)` (so a mask entry
never reverts along a surviving hypothesis), but a fixed slot `i` may be
reassigned to a different parent by the top-`B` selection, so the per-slot
time series `mask[b,i,v]` can go from true back to false (see
`C8_counterexample`). -/
theorem C8_mask_monotone_amended :
    (∀ (N : ℕ) (sampler : (Fin (N + 1) → ℝ) → Fin (N + 1))
      (u : ℕ → Fin (N + 1) → ℝ) (v : Fin (N + 1)) (s t : ℕ), s ≤ t →
      (greedyRollout N sampler u s).1 v = true →
      (greedyRollout N sampler u t).1 v = true) ∧
    (∀ (N B : ℕ) (beams : List (BeamState N)) (u : ℕ → Fin (N + 1) → ℝ),
      ∀ bm2 ∈ beamStepT N B beams u,
        ∃ f ∈ torchTopk (beamVal N beams u) B (beams.length * (N + 1)),
          bm2 = beamBuild N beams u f ∧
          ∀ v, (beams.getD (f / (N + 1)) (junkBeam N)).mask v = true →
            bm2.mask v = true) := by
  constructor
  · intro N sampler u v s t
    induction t with
    | zero =>
      intro hst hs
      have hs0 : s = 0 := by omega
      rw [hs0] at hs
      exact hs
    | succ t ih =>
      intro hst hs
      by_cases hcase : s = t + 1
      · rw [hcase] at hs
        exact hs
      · have hm : (greedyRollout N sampler u t).1 v = true := ih (by omega) hs
        show setMaskTrue (greedyRollout N sampler u t).1
          (next_node_choice sampler (prob_next_node (greedyRollout N sampler u t).1 (u t))) v
          = true
        simp only [setMaskTrue]
        by_cases hv : v = next_node_choice sampler
          (prob_next_node (greedyRollout N sampler u t).1 (u t))
        · rw [if_pos hv]
        · rw [if_neg hv]
          exact hm
  · intro N B beams u bm2 hbm2
    simp only [beamStepT, List.mem_map] at hbm2
    obtain ⟨f, hfsel, rfl⟩ := hbm2
    refine ⟨f, hfsel, rfl, ?_⟩
    intro v hv
    show setMaskTrue (beams.getD (f / (N + 1)) (junkBeam N)).mask
      (nodeOf N (f % (N + 1))) v = true
    simp only [setMaskTrue]
    by_cases hc : v = nodeOf N (f % (N + 1))
    · rw [if_pos hc]
    · rw [if_neg hc]
      exact hv

/-- Closed witness instantiating both parts of `C8_mask_monotone_amended`:
the greedy start-token entry stays true from step 0 to step 1, and the
single beam produced by a one-beam step extends its parent's mask. -/
theorem C8_witness :
    (greedyRollout 1 (fun _ => 0) (fun _ _ => 0) 1).1 1 = true ∧
    (∃ f ∈ torchTopk (beamVal 0 [junkBeam 0] (fun _ _ => 0)) 1
        ([junkBeam 0].length * (0 + 1)),
      (beamStepT 0 1 [junkBeam 0] (fun _ _ => 0)).getD 0 (junkBeam 0)
        = beamBuild 0 [junkBeam 0] (fun _ _ => 0) f ∧
      ∀ v, ([junkBeam 0].getD (f / (0 + 1)) (junkBeam 0)).mask v = true →
        ((beamStepT 0 1 [junkBeam 0] (fun _ _ => 0)).getD 0 (junkBeam 0)).mask v
          = true) := by
  constructor
  · exact C8_mask_monotone_amended.1 1 (fun _ => 0) (fun _ _ => 0) 1 0 1
      (Nat.zero_le 1) rfl
  · have hlen : (beamStepT 0 1 [junkBeam 0] (fun _ _ => 0)).length = 1 :=
      beamStepT_length 0 1 _ _ (by norm_num)
    obtain ⟨y, hy⟩ := List.length_eq_one.mp hlen
    have hmem : (beamStepT 0 1 [junkBeam 0] (fun _ _ => 0)).getD 0 (junkBeam 0)
        ∈ beamStepT 0 1 [junkBeam 0] (fun _ _ => 0) := by
      rw [hy]
      exact List.mem_singleton.mpr rfl
    exact C8_mask_monotone_amended.2 0 1 [junkBeam 0] (fun _ _ => 0) _ hmem

/-! ## A concrete beam run refuting per-slot mask monotonicity

With `N = 3`, `B = 2` and all raw logits `0`, the stable top-k tie-breaks
put beams `[0]`, `[1]` in slots 0 and 1 after step 0; at step 1 all four
unmasked children tie, so both survivors descend from slot 0's beam
(`idx_top_beams = [0,0]`), and slot 1 now holds the tour `[0,2]`: its mask
entry for node 1 reverts from true to false. -/

theorem firstMaxList_singleton {α : Type} (val : α → ℝ) (i : α) :
    firstMaxList val [i] = some i := by
  simp [firstMaxList]

theorem firstMaxList_cons_of_some {α : Type} (val : α → ℝ) (i j : α)
    (l : List α) (h : firstMaxList val l = some j) :
    firstMaxList val (i :: l) = if val i < val j then some j else some i := by
  simp only [firstMaxList, h]

/-- Evaluation of stable top-2 over four candidates whose values are
`b, b, b, a` with `a < b`: the first two indices are kept. -/
theorem topk4_pattern (val : ℕ → ℝ) (a b : ℝ)
    (h0 : val 0 = b) (h1 : val 1 = b) (h2 : val 2 = b) (h3 : val 3 = a)
    (hab : a < b) : torchTopk val 2 4 = [0, 1] := by
  have f3 : firstMaxList val [3] = some 3 := firstMaxList_singleton val 3
  have f23 : firstMaxList val [2, 3] = some 2 := by
    rw [firstMaxList_cons_of_some val 2 3 [3] f3, h2, h3,
      if_neg (not_lt.mpr (le_of_lt hab))]
  have f123 : firstMaxList val [1, 2, 3] = some 1 := by
    rw [firstMaxList_cons_of_some val 1 2 [2, 3] f23, h1, h2,
      if_neg (lt_irrefl b)]
  have f0123 : firstMaxList val [0, 1, 2, 3] = some 0 := by
    rw [firstMaxList_cons_of_some val 0 1 [1, 2, 3] f123, h0, h1,
      if_neg (lt_irrefl b)]
  have hrange : List.range 4 = [0, 1, 2, 3] := rfl
  show topkAux val 2 (List.range 4) = [0, 1]
  rw [hrange]
  simp only [topkAux, f0123]
  have herase : ([0, 1, 2, 3] : List ℕ).erase 0 = [1, 2, 3] := rfl
  rw [herase]
  simp only [topkAux, f123]

/-- Evaluation of stable top-2 over eight candidates whose values are
`a, b, b, a, b, a, b, a` with `a < b`: indices 1 and 2 are kept. -/
theorem topk8_pattern (val : ℕ → ℝ) (a b : ℝ)
    (h0 : val 0 = a) (h1 : val 1 = b) (h2 : val 2 = b) (h3 : val 3 = a)
    (h4 : val 4 = b) (h5 : val 5 = a) (h6 : val 6 = b) (h7 : val 7 = a)
    (hab : a < b) : torchTopk val 2 8 = [1, 2] := by
  have hba : ¬ b < a := not_lt.mpr (le_of_lt hab)
  have hbb : ¬ b < b := lt_irrefl b
  have f7 : firstMaxList val [7] = some 7 := firstMaxList_singleton val 7
  have f67 : firstMaxList val [6, 7] = some 6 := by
    rw [firstMaxList_cons_of_some val 6 7 [7] f7, h6, h7, if_neg hba]
  have f567 : firstMaxList val [5, 6, 7] = some 6 := by
    rw [firstMaxList_cons_of_some val 5 6 [6, 7] f67, h5, h6, if_pos hab]
  have f4567 : firstMaxList val [4, 5, 6, 7] = some 4 := by
    rw [firstMaxList_cons_of_some val 4 6 [5, 6, 7] f567, h4, h6, if_neg hbb]
  have f34567 : firstMaxList val [3, 4, 5, 6, 7] = some 4 := by
    rw [firstMaxList_cons_of_some val 3 4 [4, 5, 6, 7] f4567, h3, h4, if_pos hab]
  have f234567 : firstMaxList val [2, 3, 4, 5, 6, 7] = some 2 := by
    rw [firstMaxList_cons_of_some val 2 4 [3, 4, 5, 6, 7] f34567, h2, h4,
      if_neg hbb]
  have f1to7 : firstMaxList val [1, 2, 3, 4, 5, 6, 7] = some 1 := by
    rw [firstMaxList_cons_of_some val 1 2 [2, 3, 4, 5, 6, 7] f234567, h1, h2,
      if_neg hbb]
  have f0to7 : firstMaxList val [0, 1, 2, 3, 4, 5, 6, 7] = some 1 := by
    rw [firstMaxList_cons_of_some val 0 1 [1, 2, 3, 4, 5, 6, 7] f1to7, h0, h1,
      if_pos hab]
  -- the second round, after erasing 1
  have g7 : firstMaxList val [7] = some 7 := f7
  have g67 : firstMaxList val [6, 7] = some 6 := f67
  have g567 : firstMaxList val [5, 6, 7] = some 6 := f567
  have g4567 : firstMaxList val [4, 5, 6, 7] = some 4 := f4567
  have g34567 : firstMaxList val [3, 4, 5, 6, 7] = some 4 := f34567
  have g234567 : firstMaxList val [2, 3, 4, 5, 6, 7] = some 2 := f234567
  have g0 : firstMaxList val [0, 2, 3, 4, 5, 6, 7] = some 2 := by
    rw [firstMaxList_cons_of_some val 0 2 [2, 3, 4, 5, 6, 7] g234567, h0, h2,
      if_pos hab]
  have hrange : List.range 8 = [0, 1, 2, 3, 4, 5, 6, 7] := rfl
  show topkAux val 2 (List.range 8) = [1, 2]
  rw [hrange]
  simp only [topkAux, f0to7]
  have herase : ([0, 1, 2, 3, 4, 5, 6, 7] : List ℕ).erase 1
      = [0, 2, 3, 4, 5, 6, 7] := rfl
  rw [herase]
  simp only [topkAux, g0]

/-- The slot-0 beam after step 0 of the all-zero-logit run: tour `[0]`. -/
noncomputable def cexBeamA : BeamState 3 :=
  { tour := [nodeOf 3 0]
    mask := setMaskTrue (initVisitedMask 3) (nodeOf 3 0)
    score := Real.log (prob_next_node (initVisitedMask 3) (fun _ => 0) (nodeOf 3 0)) }

/-- The slot-1 beam after step 0 of the all-zero-logit run: tour `[1]`. -/
noncomputable def cexBeamB : BeamState 3 :=
  { tour := [nodeOf 3 1]
    mask := setMaskTrue (initVisitedMask 3) (nodeOf 3 1)
    score := Real.log (prob_next_node (initVisitedMask 3) (fun _ => 0) (nodeOf 3 1)) }

theorem cex_logit_unmasked (mask : Fin 4 → Bool) (i : Fin 4)
    (h : mask i = false) :
    myMHA_logits (some 10) (some mask) (fun _ => (0 : ℝ)) i = 0 := by
  simp [myMHA_logits, maskFillRow, clipLogits, h, Real.tanh_zero]

theorem cex_prob_same_unmasked (mask : Fin 4 → Bool) (i j : Fin 4)
    (hi : mask i = false) (hj : mask j = false) :
    prob_next_node mask (fun _ => (0 : ℝ)) i
      = prob_next_node mask (fun _ => (0 : ℝ)) j := by
  rw [prob_next_node_eq, prob_next_node_eq, cex_logit_unmasked mask i hi,
    cex_logit_unmasked mask j hj]

theorem cex_prob_same_masked (mask : Fin 4 → Bool) (i j : Fin 4)
    (hi : mask i = true) (hj : mask j = true) :
    prob_next_node mask (fun _ => (0 : ℝ)) i
      = prob_next_node mask (fun _ => (0 : ℝ)) j := by
  rw [prob_next_node_eq, prob_next_node_eq,
    myMHA_logits_of_mask (some 10) mask _ hi, myMHA_logits_of_mask (some 10) mask _ hj]

theorem cex_log_prob_masked_lt (mask : Fin 4 → Bool) (i j : Fin 4)
    (hi : mask i = true) (hj : mask j = false) :
    Real.log (prob_next_node mask (fun _ => (0 : ℝ)) i)
      < Real.log (prob_next_node mask (fun _ => (0 : ℝ)) j) :=
  Real.log_lt_log (softmaxRow_pos _ _) (prob_masked_lt_unmasked mask _ hi hj)

theorem cex_Zsum_AB :
    Zsum cexBeamA.mask (fun _ => (0 : ℝ)) = Zsum cexBeamB.mask (fun _ => (0 : ℝ)) := by
  rw [Zsum, Zsum, Fin.sum_univ_four, Fin.sum_univ_four]
  rw [myMHA_logits_of_mask (some 10) cexBeamA.mask _ (by decide : cexBeamA.mask 0 = true),
    cex_logit_unmasked cexBeamA.mask 1 (by decide),
    cex_logit_unmasked cexBeamA.mask 2 (by decide),
    myMHA_logits_of_mask (some 10) cexBeamA.mask _ (by decide : cexBeamA.mask 3 = true),
    cex_logit_unmasked cexBeamB.mask 0 (by decide),
    myMHA_logits_of_mask (some 10) cexBeamB.mask _ (by decide : cexBeamB.mask 1 = true),
    cex_logit_unmasked cexBeamB.mask 2 (by decide),
    myMHA_logits_of_mask (some 10) cexBeamB.mask _ (by decide : cexBeamB.mask 3 = true)]
  ring

theorem cex_prob_cross_unmasked (i j : Fin 4)
    (hi : cexBeamB.mask i = false) (hj : cexBeamA.mask j = false) :
    prob_next_node cexBeamB.mask (fun _ => (0 : ℝ)) i
      = prob_next_node cexBeamA.mask (fun _ => (0 : ℝ)) j := by
  rw [prob_next_node_eq, prob_next_node_eq, cex_logit_unmasked cexBeamB.mask i hi,
    cex_logit_unmasked cexBeamA.mask j hj, cex_Zsum_AB]

theorem cex_prob_cross_masked (i j : Fin 4)
    (hi : cexBeamB.mask i = true) (hj : cexBeamA.mask j = true) :
    prob_next_node cexBeamB.mask (fun _ => (0 : ℝ)) i
      = prob_next_node cexBeamA.mask (fun _ => (0 : ℝ)) j := by
  rw [prob_next_node_eq, prob_next_node_eq,
    myMHA_logits_of_mask (some 10) cexBeamB.mask _ hi,
    myMHA_logits_of_mask (some 10) cexBeamA.mask _ hj, cex_Zsum_AB]

theorem cex_score_AB : cexBeamA.score = cexBeamB.score := by
  show Real.log (prob_next_node (initVisitedMask 3) (fun _ => 0) (nodeOf 3 0))
    = Real.log (prob_next_node (initVisitedMask 3) (fun _ => 0) (nodeOf 3 1))
  rw [cex_prob_same_unmasked (initVisitedMask 3) (nodeOf 3 0) (nodeOf 3 1)
    (by decide) (by decide)]

theorem cex_step0 :
    beamRollout 3 2 (fun _ _ _ => (0 : ℝ)) 0 = [cexBeamA, cexBeamB] := by
  show beamStep0 3 2 ((fun _ _ _ => (0 : ℝ)) 0 0) = [cexBeamA, cexBeamB]
  have hsel0 : torchTopk
      (fun f => Real.log (prob_next_node (initVisitedMask 3)
        (fun _ => (0 : ℝ)) (nodeOf 3 f))) (min 2 3) (3 + 1) = [0, 1] := by
    apply topk4_pattern _
      (Real.log (prob_next_node (initVisitedMask 3) (fun _ => (0 : ℝ)) (nodeOf 3 3)))
      (Real.log (prob_next_node (initVisitedMask 3) (fun _ => (0 : ℝ)) (nodeOf 3 0)))
    · rfl
    · exact congrArg Real.log (cex_prob_same_unmasked (initVisitedMask 3)
        (nodeOf 3 1) (nodeOf 3 0) (by decide) (by decide))
    · exact congrArg Real.log (cex_prob_same_unmasked (initVisitedMask 3)
        (nodeOf 3 2) (nodeOf 3 0) (by decide) (by decide))
    · rfl
    · exact cex_log_prob_masked_lt (initVisitedMask 3) (nodeOf 3 3) (nodeOf 3 0)
        (by decide) (by decide)
  show beamStep0 3 2 (fun _ => (0 : ℝ)) = [cexBeamA, cexBeamB]
  simp only [beamStep0]
  rw [hsel0]
  rfl

theorem cex_step1 :
    beamRollout 3 2 (fun _ _ _ => (0 : ℝ)) 1
      = [beamBuild 3 [cexBeamA, cexBeamB] ((fun _ _ _ => (0 : ℝ)) 1) 1,
         beamBuild 3 [cexBeamA, cexBeamB] ((fun _ _ _ => (0 : ℝ)) 1) 2] := by
  show beamStepT 3 2 (beamRollout 3 2 (fun _ _ _ => (0 : ℝ)) 0)
    ((fun _ _ _ => (0 : ℝ)) 1) = _
  rw [cex_step0]
  simp only [beamStepT]
  have hval : ∀ f : ℕ, beamVal 3 [cexBeamA, cexBeamB] ((fun _ _ _ => (0 : ℝ)) 1) f
      = ([cexBeamA, cexBeamB].getD (f / 4) (junkBeam 3)).score
        + Real.log (prob_next_node
            ([cexBeamA, cexBeamB].getD (f / 4) (junkBeam 3)).mask
            (fun _ => (0 : ℝ)) (nodeOf 3 (f % 4))) := by
    intro f
    rfl
  have hsel1 : torchTopk (beamVal 3 [cexBeamA, cexBeamB] ((fun _ _ _ => (0 : ℝ)) 1))
      2 ([cexBeamA, cexBeamB].length * (3 + 1)) = [1, 2] := by
    apply topk8_pattern _
      (cexBeamA.score
        + Real.log (prob_next_node cexBeamA.mask (fun _ => (0 : ℝ)) (nodeOf 3 0)))
      (cexBeamA.score
        + Real.log (prob_next_node cexBeamA.mask (fun _ => (0 : ℝ)) (nodeOf 3 1)))
    · exact hval 0
    · exact hval 1
    · rw [hval 2]
      exact congrArg (fun r => cexBeamA.score + Real.log r)
        (cex_prob_same_unmasked cexBeamA.mask (nodeOf 3 2) (nodeOf 3 1)
          (by decide) (by decide))
    · rw [hval 3]
      exact congrArg (fun r => cexBeamA.score + Real.log r)
        (cex_prob_same_masked cexBeamA.mask (nodeOf 3 3) (nodeOf 3 0)
          (by decide) (by decide))
    · rw [hval 4, cex_score_AB]
      exact congrArg (fun r => cexBeamB.score + Real.log r)
        (cex_prob_cross_unmasked (nodeOf 3 0) (nodeOf 3 1) (by decide) (by decide))
    · rw [hval 5, cex_score_AB]
      exact congrArg (fun r => cexBeamB.score + Real.log r)
        (cex_prob_cross_masked (nodeOf 3 1) (nodeOf 3 0) (by decide) (by decide))
    · rw [hval 6, cex_score_AB]
      exact congrArg (fun r => cexBeamB.score + Real.log r)
        (cex_prob_cross_unmasked (nodeOf 3 2) (nodeOf 3 1) (by decide) (by decide))
    · rw [hval 7, cex_score_AB]
      exact congrArg (fun r => cexBeamB.score + Real.log r)
        (cex_prob_cross_masked (nodeOf 3 3) (nodeOf 3 0) (by decide) (by decide))
    · exact add_lt_add_left
        (cex_log_prob_masked_lt cexBeamA.mask (nodeOf 3 0) (nodeOf 3 1)
          (by decide) (by decide)) cexBeamA.score
  rw [hsel1]
  rfl

/-- C8 counterexample to the claim as literally stated: in beam-search mode
with `N = 3`, `B = 2` and all raw logits `0`, the visited-mask entry of
beam slot 1 for node 1 is true after step 0 (slot 1 holds tour `[1]`) and
false after step 1 (the stable top-k reassigns slot 1 to a child of slot
0's beam, with tour `[0, 2]`), so a true mask entry does not persist per
(row, slot, node) across decoding steps. -/
theorem C8_counterexample :
    ((beamRollout 3 2 (fun _ _ _ => (0 : ℝ)) 0).getD 1 (junkBeam 3)).mask 1 = true ∧
    ((beamRollout 3 2 (fun _ _ _ => (0 : ℝ)) 1).getD 1 (junkBeam 3)).mask 1 = false := by
  constructor
  · rw [cex_step0]
    rfl
  · rw [cex_step1]
    rfl

end TSPModel
